import Mathlib

/-!
Verification of the document-structuring core of the Documentation_Organizer
repository: the heading-driven section-tree builder, the flattener with
breadcrumbs and recursive content rendering, the paragraph chunker for
oversized sections, the chunk-record reassembler, and the classification
dispatch layer.

Python strings are modelled as Lean strings (logically lists of characters).
The helpers pySplit2 and pyJoin model str.split("\n\n") / sep.join(parts);
both follow Python's leftmost non-overlapping splitting semantics.
-/

set_option maxHeartbeats 1000000
set_option maxRecDepth 100000

/-- DecidableEq for Except, used to evaluate builder results on concrete input. -/
instance exceptDecEq {e : Type} {a : Type} [DecidableEq e] [DecidableEq a] :
    DecidableEq (Except e a) := fun x y =>
  match x, y with
  | .ok v, .ok w =>
    if h : v = w then isTrue (by rw [h]) else isFalse (by intro hh; cases hh; exact h rfl)
  | .error v, .error w =>
    if h : v = w then isTrue (by rw [h]) else isFalse (by intro hh; cases hh; exact h rfl)
  | .ok _, .error _ => isFalse (by intro hh; cases hh)
  | .error _, .ok _ => isFalse (by intro hh; cases hh)

/-- Concatenation of a list of strings (no separator). -/
def sconcat (xs : List String) : String := xs.foldr (· ++ ·) ""

/-- Drop leading whitespace characters. -/
def dropLeadingWs : List Char → List Char
  | [] => []
  | c :: rest => if c.isWhitespace then dropLeadingWs rest else c :: rest

/-- Models Python str.strip: remove leading and trailing whitespace. -/
def pyStrip (s : String) : String :=
  String.mk ((dropLeadingWs (dropLeadingWs s.data).reverse).reverse)

/-- Separator join on character lists, following Python str.join. -/
def joinSep (sep : List Char) : List (List Char) → List Char
  | [] => []
  | [g] => g
  | g :: g2 :: gs => g ++ sep ++ joinSep sep (g2 :: gs)

/-- Models Python sep.join(parts) for strings. -/
def pyJoin (sep : String) (parts : List String) : String :=
  String.mk (joinSep sep.data (parts.map String.data))

/-- Leftmost non-overlapping split of a character list on the two-character
separator newline-newline, following Python content.split with that separator. -/
def splitSeq : List Char → List (List Char)
  | [] => [[]]
  | [c] => [[c]]
  | c1 :: c2 :: rest =>
    if c1 = '\n' ∧ c2 = '\n' then [] :: splitSeq rest
    else
      match splitSeq (c2 :: rest) with
      | [] => [[c1]]
      | g :: gs => (c1 :: g) :: gs

/-- Models Python content.split on the blank-line separator. -/
def pySplit2 (content : String) : List String :=
  (splitSeq content.data).map String.mk

/-- splitSeq always returns at least one group. -/
theorem splitSeq_ne_nil (cs : List Char) : splitSeq cs ≠ [] := by
  induction cs using splitSeq.induct with
  | case1 => simp [splitSeq]
  | case2 c => simp [splitSeq]
  | case3 c1 c2 rest hnn ih => simp [splitSeq, if_pos hnn]
  | case4 c1 c2 rest hnn hsp ih => exact absurd hsp ih
  | case5 c1 c2 rest hnn g gs hsp ih =>
    simp [splitSeq, if_neg hnn, hsp]

/-- Re-joining the split groups with the separator restores the original list. -/
theorem joinSep_splitSeq (cs : List Char) :
    joinSep ['\n', '\n'] (splitSeq cs) = cs := by
  induction cs using splitSeq.induct with
  | case1 => simp [splitSeq, joinSep]
  | case2 c => simp [splitSeq, joinSep]
  | case3 c1 c2 rest hnn ih =>
    obtain ⟨h1, h2⟩ := hnn
    subst h1; subst h2
    simp only [splitSeq, if_pos (And.intro rfl rfl)]
    cases h : splitSeq rest with
    | nil => exact absurd h (splitSeq_ne_nil rest)
    | cons g gs =>
      rw [h] at ih
      simp [joinSep, ih]
  | case4 c1 c2 rest hnn hsp ih =>
    exact absurd hsp (splitSeq_ne_nil (c2 :: rest))
  | case5 c1 c2 rest hnn g gs hsp ih =>
    simp only [splitSeq, if_neg hnn, hsp]
    rw [hsp] at ih
    cases gs with
    | nil =>
      simp only [joinSep] at ih ⊢
      rw [ih]
    | cons g2 gs2 =>
      simp only [joinSep, List.cons_append, List.append_assoc] at ih ⊢
      rw [ih]

/- ---------------------------------------------------------------------------
HTML node stream (external interface of the tokenizer).
Each node carries its tag name, the plain extracted texts, and its raw
serialization, matching the accessors the source uses.
--------------------------------------------------------------------------- -/

/-- An HTML node of the tokenized stream: tag name, element.get_text(),
element.get_text with newline separator and stripping, and str(element). -/
structure Node where
  tag : String
  text : String
  textSep : String
  raw : String
deriving Repr, DecidableEq

/-- HTMLParser._get_heading_level: h1 gives 1, h2 gives 2, non-headings give 0. -/
def getHeadingLevel (tag : String) : Nat :=
  match tag.data with
  | [] => 0
  | c :: rest =>
    if c.toLower = 'h' ∧ rest ≠ [] ∧ rest.all Char.isDigit then
      rest.foldl (fun a d => a * 10 + (d.toNat - 48)) 0
    else 0

/- ---------------------------------------------------------------------------
Section store. DocumentSection objects are mutable and shared between the
tree and the current_sections map, so sections are modelled as records in a
store indexed by creation order; id 0 is the synthetic root. The subsections
list of a section is recovered from the parent back-references, in creation
order, which coincides with insertion order in the source.
--------------------------------------------------------------------------- -/

/-- One DocumentSection: title, level, content blocks, parent reference. -/
structure SecRec where
  title : String
  level : Nat
  content : List String
  parent : Option Nat
deriving Repr, DecidableEq

/-- The store of all sections created so far; index = creation order. -/
abbrev Store := List SecRec

/-- Builder state: the section store plus the current_sections mapping from
heading level to the open section at that level (value none = entry set to
None by a shallower heading; key absent = level never seen). -/
structure BState where
  store : Store
  cs : List (Nat × Option Nat)
deriving Repr, DecidableEq

/-- The KeyError the parent search can raise. -/
inductive BuildErr where
  | keyError
deriving Repr, DecidableEq

/-- Python dict assignment on the association list: replace or append. -/
def alInsert : List (Nat × Option Nat) → Nat → Option Nat → List (Nat × Option Nat)
  | [], k, v => [(k, v)]
  | (k1, v1) :: t, k, v =>
    if k1 = k then (k, v) :: t else (k1, v1) :: alInsert t k v

/-- Clear deeper levels: every present key above lvl has its value set to None. -/
def closeDeeper (cs : List (Nat × Option Nat)) (lvl : Nat) : List (Nat × Option Nat) :=
  cs.map (fun kv => if lvl < kv.1 then (kv.1, (none : Option Nat)) else kv)

/-- First while loop of the parent search: decrement past levels absent from
the dict (while parent_level > 0 and parent_level not in current_sections). -/
def skipAbsent (cs : List (Nat × Option Nat)) : Nat → Nat
  | 0 => 0
  | n + 1 => if (cs.lookup (n + 1)).isSome then n + 1 else skipAbsent cs n

/-- Second while loop: decrement while the entry is None; accessing an absent
key here raises KeyError, exactly as the dict subscript in the source does. -/
def skipClosed (cs : List (Nat × Option Nat)) : Nat → Except BuildErr Nat
  | 0 => .ok 0
  | n + 1 =>
    match cs.lookup (n + 1) with
    | none => .error .keyError
    | some none => skipClosed cs n
    | some (some _) => .ok (n + 1)

/-- Deepest still-open level: largest key whose value is a section
(the source iterates sorted keys in reverse and stops at the first non-None). -/
def deepestOpen (cs : List (Nat × Option Nat)) : Option Nat :=
  (cs.foldl
    (fun acc kv =>
      match kv.2 with
      | none => acc
      | some i =>
        match acc with
        | none => some (kv.1, i)
        | some (k1, i1) => if k1 < kv.1 then some (kv.1, i) else some (k1, i1))
    none).map (·.2)

/-- The attachment target: if the found level holds an open section, attach
there; a missing or closed entry is falsy and the root is used instead. -/
def parentChoice (cs : List (Nat × Option Nat)) (pl : Nat) : Nat :=
  match cs.lookup pl with
  | some (some pid) => pid
  | _ => 0

/-- Processing of one heading element inside build_section_tree: find the
parent level, attach the new section, register it open at its level, close
all deeper levels. -/
def headingStep (st : BState) (lvl : Nat) (ttl : String) : Except BuildErr BState :=
  match skipClosed st.cs (skipAbsent st.cs (lvl - 1)) with
  | .error e => .error e
  | .ok pl =>
    .ok ⟨st.store ++ [⟨ttl, lvl, [], some (parentChoice st.cs pl)⟩],
         closeDeeper (alInsert st.cs lvl (some st.store.length)) lvl⟩

/-- DocumentSection.add_content on the store: append the stripped block if
it is nonempty. -/
def addContentAt (store : Store) (i : Nat) (s : String) : Store :=
  match store[i]? with
  | some r =>
    store.set i
      { r with content := if pyStrip s ≠ "" then r.content ++ [pyStrip s] else r.content }
  | none => store

/-- Processing of one non-heading element: add its rendered text to the
deepest still-open section, wrapping code and pre nodes as fenced blocks. -/
def contentStep (st : BState) (nd : Node) : BState :=
  match deepestOpen st.cs with
  | none => st
  | some i =>
    if pyStrip nd.raw ≠ "" then
      ⟨addContentAt st.store i
        (if nd.tag = "code" ∨ nd.tag = "pre" then "```\n" ++ pyStrip nd.text ++ "\n```"
         else nd.textSep),
       st.cs⟩
    else st

/-- One element of the stream, dispatched on its heading level. -/
def buildStep (st : BState) (nd : Node) : Except BuildErr BState :=
  if 0 < getHeadingLevel nd.tag then
    headingStep st (getHeadingLevel nd.tag) (pyStrip nd.text)
  else .ok (contentStep st nd)

/-- Initial state: the dummy ROOT section at level 0, registered open. -/
def initState : BState :=
  ⟨[⟨"ROOT", 0, [], none⟩], [(0, some 0)]⟩

/-- HTMLParser.build_section_tree over the element stream. -/
def buildSectionTree (nodes : List Node) : Except BuildErr BState :=
  nodes.foldlM buildStep initState

/-- A heading node of the test streams. -/
def hNode (lvl : Nat) (t : String) : Node :=
  ⟨"h" ++ toString lvl, t, t, "<h" ++ toString lvl ++ ">" ++ t ++ "</h" ++ toString lvl ++ ">"⟩

/-- A paragraph node of the test streams. -/
def pNode (t : String) : Node :=
  ⟨"p", t, t, "<p>" ++ t ++ "</p>"⟩

/- ---------------------------------------------------------------------------
Derived accessors on the store, and the recursive section operations.
The executable recursions take the store length as fuel; on every store the
builder can produce, parent indices are smaller than child indices, so this
fuel always suffices (fuel congruence lemmas below make this precise).
--------------------------------------------------------------------------- -/

/-- Title of section i, or the empty string when i is out of range. -/
def titleAt (st : Store) (i : Nat) : String :=
  ((st[i]?).map (fun r => r.title)).getD ""

/-- Content blocks of section i. -/
def contentAt (st : Store) (i : Nat) : List String :=
  ((st[i]?).map (fun r => r.content)).getD []

/-- Parent reference of section i. -/
def parentIdOf (st : Store) (i : Nat) : Option Nat :=
  (st[i]?).bind (fun r => r.parent)

/-- The subsections of section i, recovered from parent back-references in
creation order (equal to the insertion order of add_subsection). -/
def childIds (st : Store) (i : Nat) : List Nat :=
  (List.range st.length).filter (fun j => decide (i < j ∧ parentIdOf st j = some i))

/-- Every store the builder produces satisfies this: each parent reference
points to an earlier section. -/
def ParentDec (st : Store) : Prop :=
  ∀ j, ∀ p, parentIdOf st j = some p → p < j

/-- Bounded, decidable form of ParentDec. -/
def parentDecB (st : Store) : Bool :=
  (List.range st.length).all (fun j => (parentIdOf st j).all (fun p => decide (p < j)))

theorem parentDec_of_parentDecB (st : Store) (h : parentDecB st = true) : ParentDec st := by
  intro j p hp
  by_cases hj : j < st.length
  · have := (List.all_eq_true.mp h) j (List.mem_range.mpr hj)
    rw [hp] at this
    simpa using this
  · exfalso
    have : st[j]? = none := by
      rw [List.getElem?_eq_none]
      omega
    simp [parentIdOf, this] at hp

/-- On parent-decreasing stores, the subsections are just the sections whose
parent reference equals i: the extra index bound in childIds is redundant. -/
theorem childIds_eq_of_parentDec (st : Store) (h : ParentDec st) (i : Nat) :
    childIds st i = (List.range st.length).filter (fun j => decide (parentIdOf st j = some i)) := by
  unfold childIds
  apply List.filter_congr
  intro j hj
  simp only [decide_eq_true_eq, decide_eq_decide]
  constructor
  · intro hh; exact hh.2
  · intro hh; exact ⟨h j i hh, hh⟩

theorem mem_childIds (st : Store) (i j : Nat) (h : j ∈ childIds st i) :
    i < j ∧ j < st.length ∧ parentIdOf st j = some i := by
  unfold childIds at h
  have h2 := List.mem_filter.mp h
  have h3 := List.mem_range.mp h2.1
  have h4 := of_decide_eq_true h2.2
  exact ⟨h4.1, h3, h4.2⟩

/-- DocumentSection.get_full_content, with the store length as fuel for the
recursion over subsections. -/
def getFullContentAux (st : Store) : Nat → Nat → String
  | 0, _ => ""
  | f + 1, i =>
    pyJoin "\n"
      ((if titleAt st i ≠ "" then ["## " ++ titleAt st i ++ "\n"] else [])
        ++ [pyJoin "\n" (contentAt st i)]
        ++ (childIds st i).map (getFullContentAux st f))

/-- DocumentSection.get_full_content: heading marker, own content blocks
joined by newlines, then each subsection's full content, in document order. -/
def getFullContent (st : Store) (i : Nat) : String :=
  getFullContentAux st st.length i

/-- DocumentSection.get_breadcrumbs, with fuel for the walk up the parent
references (fuel i suffices on parent-decreasing stores). -/
def bcAux (st : Store) : Nat → Nat → List String
  | 0, i => [titleAt st i]
  | f + 1, i =>
    match parentIdOf st i with
    | none => [titleAt st i]
    | some p => bcAux st f p ++ [titleAt st i]

/-- DocumentSection.get_breadcrumbs: titles along the parent chain from the
root down to this section. -/
def getBreadcrumbs (st : Store) (i : Nat) : List String :=
  bcAux st i i

/-- One flattened section dict, as produced by HTMLParser.flatten_sections. -/
structure FlatSec where
  title : String
  content : String
  breadcrumbs : List String
deriving Repr, DecidableEq

/-- The dict appended for one visited section. -/
def mkFlat (st : Store) (i : Nat) : FlatSec :=
  ⟨titleAt st i, getFullContent st i, getBreadcrumbs st i⟩

/-- The traverse closure of flatten_sections, with store-length fuel. -/
def flattenAux (st : Store) : Nat → Nat → List FlatSec
  | 0, _ => []
  | f + 1, i =>
    (if titleAt st i ≠ "ROOT" then [mkFlat st i] else [])
      ++ (childIds st i).flatMap (flattenAux st f)

/-- HTMLParser.flatten_sections applied to the root section. -/
def flattenSections (st : Store) : List FlatSec :=
  flattenAux st st.length 0

/-- Specification-side pre-order traversal of the stored tree. -/
def preAux (st : Store) : Nat → Nat → List Nat
  | 0, _ => []
  | f + 1, i => i :: (childIds st i).flatMap (preAux st f)

/- ---------------------------------------------------------------------------
The section chunker of GPTProcessor._process_large_section, parameterized by
the external token counter and the context-window budget.
--------------------------------------------------------------------------- -/

/-- One iteration of the paragraph-accumulation loop: on overflow of the half
budget, flush the current chunk (joined on the blank-line separator) and
start a new one with this paragraph; otherwise accumulate. -/
def chunkStepS (count : String → Nat) (window : Nat)
    (acc : List String × List String × Nat) (para : String) :
    List String × List String × Nat :=
  if acc.2.2 + count para > window / 2 then
    (acc.1 ++ [pyJoin "\n\n" acc.2.1], [para], count para)
  else
    (acc.1, acc.2.1 ++ [para], acc.2.2 + count para)

/-- The paragraph-accumulation loop of _process_large_section. -/
def chunkFold (count : String → Nat) (window : Nat) (ps : List String) :
    List String × List String × Nat :=
  ps.foldl (chunkStepS count window) ([], [], 0)

/-- The chunking phase of _process_large_section: split content on blank
lines, greedily accumulate paragraphs, flush the trailing chunk. -/
def chunkContent (count : String → Nat) (window : Nat) (content : String) : List String :=
  let r := chunkFold count window (pySplit2 content)
  if r.2.1 ≠ [] then r.1 ++ [pyJoin "\n\n" r.2.1] else r.1

/- ---------------------------------------------------------------------------
ProcessedSection records, the gateway model, and the dispatch layer.
--------------------------------------------------------------------------- -/

/-- The structured record the classification gateway returns. -/
structure ProcessedSection where
  section_type : String
  related_endpoints : List String
  filename : String
  content : String
deriving Repr, DecidableEq

/-- The flat section dict handed to GPTProcessor.process_section. -/
structure SecDict where
  title : String
  content : String
  breadcrumbs : List String
deriving Repr, DecidableEq

/-- Possible outcomes of one gateway call, as distinguished by _call_gpt:
a raised exception, an empty choices list, a refusal attribute, a missing
parsed payload, or a parsed record. -/
inductive GwOutcome where
  | raiseExn
  | emptyChoices
  | refusal
  | parsedMissing
  | parsed (r : ProcessedSection)
deriving Repr, DecidableEq

/-- A Python exception crossing the gateway boundary. -/
inductive PyExn where
  | exn
deriving Repr, DecidableEq

/-- The body of _call_gpt before its except handler: the client call may
raise; otherwise each failure check returns None and success returns the
parsed record. -/
def callGptBody (o : GwOutcome) : Except PyExn (Option ProcessedSection) :=
  match o with
  | .raiseExn => .error .exn
  | .emptyChoices => .ok none
  | .refusal => .ok none
  | .parsedMissing => .ok none
  | .parsed r => .ok (some r)

/-- GPTProcessor._call_gpt: the except handler turns any raised exception
into a None result. -/
def callGpt (o : GwOutcome) : Option ProcessedSection :=
  match callGptBody o with
  | .error _ => none
  | .ok v => v

/-- The prompt template of GPTProcessor._create_prompt. -/
def createPrompt (title content : String) : String :=
  "\nAnalyze the following HTML documentation section and provide a structured breakdown.\n\nTitle: "
    ++ title
    ++ "\nContent: "
    ++ content
    ++ "\n\nFormat your response to match these exact field requirements:\n\n- section_type: Must be one of [\"endpoint\", \"concept\", \"overview\", \"other\"]\n  Choose based on the content type:\n  - \"endpoint\" for API endpoint documentation\n  - \"concept\" for explanatory content about concepts\n  - \"overview\" for introductory or high-level content\n  - \"other\" for anything else\n\n- related_endpoints: A list of strings containing any API endpoints mentioned\n  in the content. Return an empty list if none found.\n\n- filename: Create a URL-safe filename ending in .md.\n  Convert spaces to hyphens, remove special characters, use lowercase.\n\n- content: The section content converted to well-formatted Markdown.\n  Ensure proper heading hierarchy and code block formatting.\n"

/-- The merge loop at the end of _process_large_section: the first record
absorbs each later record's content (blank-line separated) and its
related_endpoints list; an empty record list yields None. -/
def combineChunks (rs : List ProcessedSection) : Option ProcessedSection :=
  match rs with
  | [] => none
  | r :: rest =>
    some (rest.foldl
      (fun acc part =>
        { acc with
          content := acc.content ++ "\n\n" ++ part.content,
          related_endpoints := acc.related_endpoints ++ part.related_endpoints })
      r)

/-- The chunk sub-dict built for chunk number i+1. -/
def mkChunkDict (d : SecDict) (i : Nat) (chunk : String) : SecDict :=
  ⟨d.title ++ " (Part " ++ toString (i + 1) ++ ")",
   chunk,
   d.breadcrumbs ++ ["Part " ++ toString (i + 1)]⟩

/-- GPTProcessor.process_section with the mutually recursive
_process_large_section inlined. The outer Option is a divergence marker:
none means no recursion-depth bound (fuel) suffices. The oracle fixes the
gateway outcome for each prompt unit. -/
def processSectionF (count : String → Nat) (window : Nat) (oracle : SecDict → GwOutcome) :
    Nat → SecDict → Option (Option ProcessedSection)
  | 0, _ => none
  | f + 1, d =>
    if count (createPrompt d.title d.content) > window then
      ((chunkContent count window d.content).enum.mapM
          (fun ic => processSectionF count window oracle f (mkChunkDict d ic.1 ic.2))).map
        (fun rs => combineChunks (rs.filterMap id))
    else
      some (callGpt (oracle d))

/-- The per-section loop of DocumentationOrganizer.process_file: process each
flat section, keep the successful records. -/
def processAllF (count : String → Nat) (window : Nat) (oracle : SecDict → GwOutcome)
    (f : Nat) (secs : List SecDict) : Option (List ProcessedSection) :=
  (secs.mapM (processSectionF count window oracle f)).map (List.filterMap id)

/- ---------------------------------------------------------------------------
The copy variant's flat splitter (HTMLParser.split_into_sections in the
doc_organizer copy): sections are runs from one h1..h4 heading to the next,
kept only when both title and content are nonempty.
--------------------------------------------------------------------------- -/

/-- Tags matched by find_all in the copy variant. -/
def isH14 (tag : String) : Bool :=
  tag = "h1" || tag = "h2" || tag = "h3" || tag = "h4"

/-- Serializations of the nodes following a heading, up to the next heading,
skipping nodes whose serialization strips to nothing. -/
def collectUntilHeading : List Node → List String
  | [] => []
  | n :: rest =>
    if isH14 n.tag then []
    else (if pyStrip n.raw ≠ "" then [n.raw] else []) ++ collectUntilHeading rest

/-- The copy variant's split_into_sections over a flat sibling stream:
(title, content) pairs for headings with nonempty title and content. -/
def splitCopy : List Node → List (String × String)
  | [] => []
  | n :: rest =>
    (if isH14 n.tag then
      (if pyStrip n.text ≠ "" ∧ collectUntilHeading rest ≠ [] then
        [(pyStrip n.text, pyJoin "\n" (collectUntilHeading rest))]
       else [])
     else [])
      ++ splitCopy rest

/- ---------------------------------------------------------------------------
Helper lemmas about the string operations.
--------------------------------------------------------------------------- -/

theorem sconcat_nil : sconcat [] = "" := rfl

theorem sconcat_cons (x : String) (xs : List String) :
    sconcat (x :: xs) = x ++ sconcat xs := rfl

theorem sconcat_data (xs : List String) :
    (sconcat xs).data = (xs.map String.data).flatten := by
  induction xs with
  | nil => rfl
  | cons x t ih => simp [sconcat_cons, String.data_append, ih]

theorem joinSep_cons (sep : List Char) (g : List Char) (gs : List (List Char)) :
    joinSep sep (g :: gs) = g ++ (gs.map (fun h => sep ++ h)).flatten := by
  induction gs generalizing g with
  | nil => simp [joinSep]
  | cons g2 gs2 ih =>
    simp only [joinSep, ih g2, List.map_cons, List.flatten_cons, List.append_assoc]

theorem pyJoin_data (sep : String) (parts : List String) :
    (pyJoin sep parts).data = joinSep sep.data (parts.map String.data) := rfl

theorem pyJoin_cons (sep : String) (x : String) (xs : List String) :
    pyJoin sep (x :: xs) = x ++ sconcat (xs.map (fun y => sep ++ y)) := by
  apply String.ext
  simp only [pyJoin_data, List.map_cons, joinSep_cons, String.data_append, sconcat_data,
    List.map_map]
  congr 1

theorem pyJoin_nil (sep : String) : pyJoin sep [] = "" := rfl

theorem string_append_empty (s : String) : s ++ "" = s := by
  apply String.ext
  simp [String.data_append]

theorem string_empty_append (s : String) : "" ++ s = s := by
  apply String.ext
  simp [String.data_append]

/- ---------------------------------------------------------------------------
C3: the tree builder is claimed never to fail, but the parent search crashes.
--------------------------------------------------------------------------- -/

/-- C3: the claim says build_section_tree never fails on any node stream,
degrading to an empty or smaller tree. The code is wrong: on the heading
sequence h3, h1, h4 the first search loop stops at the still-present closed
key 3, and the second loop then subscripts the absent key 2, raising
KeyError. This theorem evaluates the builder at that failing input. -/
theorem build_section_tree_keyerror :
    buildSectionTree [hNode 3 "A", hNode 1 "B", hNode 4 "C"] = .error .keyError := by
  decide

/- ---------------------------------------------------------------------------
C10: a genuine heading titled ROOT is built into the tree but hidden from
the flattened output, because the flattener compares title strings.
--------------------------------------------------------------------------- -/

/-- C10: the stream with a real h1 heading whose text is exactly ROOT builds
a level-1 Section (with its paragraph content) as a child of the synthetic
root, yet the flattened output is empty: the flattener identifies the root
by the title string ROOT, so the genuine section is omitted. -/
theorem heading_titled_root_hidden :
    buildSectionTree [hNode 1 "ROOT", pNode "x"] =
        .ok ⟨[⟨"ROOT", 0, [], none⟩, ⟨"ROOT", 1, ["x"], some 0⟩], [(0, some 0), (1, some 1)]⟩
      ∧ ([⟨"ROOT", 0, [], none⟩, ⟨"ROOT", 1, ["x"], some 0⟩] : Store)[1]? =
          some ⟨"ROOT", 1, ["x"], some 0⟩
      ∧ flattenSections [⟨"ROOT", 0, [], none⟩, ⟨"ROOT", 1, ["x"], some 0⟩] = [] := by
  refine ⟨by decide, by decide, by decide⟩

/- ---------------------------------------------------------------------------
C1 counterexample: on a stream the builder crashes on, no heading is
attached to anything, so the unconditional attachment claim fails.
--------------------------------------------------------------------------- -/

/-- C1 counterexample: the claim quantifies over every node stream, but on
the stream h4, h1, h5 the builder raises KeyError (key 4 is present but
closed, key 3 is absent), so the h5 heading never becomes a Section attached
to the open h1 section as the claim requires. -/
theorem heading_not_attached_on_keyerror :
    buildSectionTree [hNode 4 "A", hNode 1 "B", hNode 5 "C"] = .error .keyError := by
  decide

/- ---------------------------------------------------------------------------
C5 counterexample: breadcrumbs include the synthetic root's title.
--------------------------------------------------------------------------- -/

/-- C5 counterexample: get_breadcrumbs walks the parent references up to and
including the synthetic root, so for the single section built from one h1
heading the breadcrumbs are ROOT then A, not just A as the claim
(breadcrumbs exclude the synthetic root's title) requires. -/
theorem breadcrumbs_include_root_title :
    buildSectionTree [hNode 1 "A"] =
        .ok ⟨[⟨"ROOT", 0, [], none⟩, ⟨"A", 1, [], some 0⟩], [(0, some 0), (1, some 1)]⟩
      ∧ getBreadcrumbs [⟨"ROOT", 0, [], none⟩, ⟨"A", 1, [], some 0⟩] 1 ≠ ["A"]
      ∧ getBreadcrumbs [⟨"ROOT", 0, [], none⟩, ⟨"A", 1, [], some 0⟩] 1 = ["ROOT", "A"] := by
  refine ⟨by decide, by decide, by decide⟩

/- ---------------------------------------------------------------------------
C8 counterexample: a section with a title and no content blocks is still
present in the flattened output.
--------------------------------------------------------------------------- -/

/-- C8 counterexample: the claim says a titled section with zero content
blocks is excluded from the flattened output; flatten_sections actually
keeps every section whose title differs from ROOT, so the content-less
section A is included. -/
theorem flatten_keeps_contentless_section :
    buildSectionTree [hNode 1 "A"] =
        .ok ⟨[⟨"ROOT", 0, [], none⟩, ⟨"A", 1, [], some 0⟩], [(0, some 0), (1, some 1)]⟩
      ∧ contentAt [⟨"ROOT", 0, [], none⟩, ⟨"A", 1, [], some 0⟩] 1 = []
      ∧ (flattenSections [⟨"ROOT", 0, [], none⟩, ⟨"A", 1, [], some 0⟩]).map
          (fun s => s.title) = ["A"] := by
  refine ⟨by decide, by decide, by decide⟩

/- ---------------------------------------------------------------------------
C2 counterexample: a first paragraph over the half budget produces an empty
chunk and breaks exact reconstruction.
--------------------------------------------------------------------------- -/

/-- C2 counterexample: with the character-count token estimator and window 4
(half budget 2), the single-paragraph content aaaa makes the accumulation
loop flush the still-empty current chunk, so the chunker returns an empty
chunk followed by the paragraph, and restoring the separator between chunks
prepends a spurious blank line instead of reproducing the content. -/
theorem chunk_coverage_fails_oversized_first_paragraph :
    chunkContent String.length 4 "aaaa" = ["", "aaaa"]
      ∧ pyJoin "\n\n" (chunkContent String.length 4 "aaaa") ≠ "aaaa"
      ∧ "" ∈ chunkContent String.length 4 "aaaa" := by
  refine ⟨by decide, by decide, by decide⟩

/- ---------------------------------------------------------------------------
C4: the chunk-record merge.
--------------------------------------------------------------------------- -/

theorem combine_fold_spec (rest : List ProcessedSection) (acc : ProcessedSection) :
    rest.foldl
        (fun acc part =>
          { acc with
            content := acc.content ++ "\n\n" ++ part.content,
            related_endpoints := acc.related_endpoints ++ part.related_endpoints })
        acc =
      ⟨acc.section_type,
       acc.related_endpoints ++ (rest.map (fun p => p.related_endpoints)).flatten,
       acc.filename,
       acc.content ++ sconcat (rest.map (fun p => "\n\n" ++ p.content))⟩ := by
  induction rest generalizing acc with
  | nil => simp [sconcat_nil, string_append_empty]
  | cons p t ih =>
    simp only [List.foldl_cons, ih, List.map_cons, List.flatten_cons, sconcat_cons]
    cases acc with
    | mk s re fn co =>
      simp [List.append_assoc, String.append_assoc]

/-- C4 counterexample: merging two successful chunk records whose
related_endpoints overlap keeps the duplicate B, so the merged list is not a
duplicate-free set union as the claim states. -/
theorem combine_chunks_duplicate_endpoints :
    combineChunks
        [⟨"endpoint", ["A", "B"], "a.md", "c1"⟩, ⟨"other", ["B", "C"], "b.md", "c2"⟩] =
      some ⟨"endpoint", ["A", "B", "B", "C"], "a.md", "c1\n\nc2"⟩
      ∧ ¬ (["A", "B", "B", "C"] : List String).Nodup := by
  refine ⟨by decide, by decide⟩

/-- C4 (amended): merging the successful chunk records keeps the first
record's section_type and filename, concatenates the content fields in chunk
order separated by a blank line, and concatenates the related_endpoints
lists in chunk order (so the merged list covers the union of the endpoint
sets but may contain duplicates); an empty record list yields no record. -/
theorem combine_chunks_concat_spec (rs : List ProcessedSection) :
    combineChunks rs =
      match rs with
      | [] => none
      | r :: rest =>
        some ⟨r.section_type,
              ((r :: rest).map (fun p => p.related_endpoints)).flatten,
              r.filename,
              pyJoin "\n\n" ((r :: rest).map (fun p => p.content))⟩ := by
  cases rs with
  | nil => rfl
  | cons r rest =>
    simp only [combineChunks, combine_fold_spec, List.map_cons, List.flatten_cons,
      pyJoin_cons, List.map_map]
    rfl

/- ---------------------------------------------------------------------------
C2: chunk coverage. The proof works through a group-level image of the
accumulation loop in which chunks stay paragraph lists instead of being
joined at flush time.
--------------------------------------------------------------------------- -/

/-- Proof-side image of chunkStepS keeping chunks as paragraph lists. -/
def chunkStepG (count : String → Nat) (window : Nat)
    (acc : List (List String) × List String × Nat) (para : String) :
    List (List String) × List String × Nat :=
  if acc.2.2 + count para > window / 2 then
    (acc.1 ++ [acc.2.1], [para], count para)
  else
    (acc.1, acc.2.1 ++ [para], acc.2.2 + count para)

/-- A chunk group that joins to a nonempty string: it is neither the empty
group nor the group of one empty paragraph. -/
def JoinNE (g : List String) : Prop := g ≠ [] ∧ g ≠ [""]

theorem chunkFold_eq_groups (count : String → Nat) (window : Nat) :
    ∀ (ps : List String) (gs : List (List String)) (cur : List String) (toks : Nat),
      ps.foldl (chunkStepS count window) (gs.map (pyJoin "\n\n"), cur, toks) =
        ((ps.foldl (chunkStepG count window) (gs, cur, toks)).1.map (pyJoin "\n\n"),
         (ps.foldl (chunkStepG count window) (gs, cur, toks)).2) := by
  intro ps
  induction ps with
  | nil => intro gs cur toks; rfl
  | cons p t ih =>
    intro gs cur toks
    simp only [List.foldl_cons]
    by_cases h : toks + count p > window / 2
    · have e1 : chunkStepS count window (gs.map (pyJoin "\n\n"), cur, toks) p =
          ((gs ++ [cur]).map (pyJoin "\n\n"), [p], count p) := by
        simp [chunkStepS, h]
      have e2 : chunkStepG count window (gs, cur, toks) p = (gs ++ [cur], [p], count p) := by
        simp [chunkStepG, h]
      rw [e1, e2]
      exact ih (gs ++ [cur]) [p] (count p)
    · have e1 : chunkStepS count window (gs.map (pyJoin "\n\n"), cur, toks) p =
          (gs.map (pyJoin "\n\n"), cur ++ [p], toks + count p) := by
        simp [chunkStepS, h]
      have e2 : chunkStepG count window (gs, cur, toks) p =
          (gs, cur ++ [p], toks + count p) := by
        simp [chunkStepG, h]
      rw [e1, e2]
      exact ih gs (cur ++ [p]) (toks + count p)

theorem chunkGroups_flatten (count : String → Nat) (window : Nat) :
    ∀ (ps : List String) (gs : List (List String)) (cur : List String) (toks : Nat),
      (ps.foldl (chunkStepG count window) (gs, cur, toks)).1.flatten ++
          (ps.foldl (chunkStepG count window) (gs, cur, toks)).2.1 =
        gs.flatten ++ cur ++ ps := by
  intro ps
  induction ps with
  | nil => intro gs cur toks; simp
  | cons p t ih =>
    intro gs cur toks
    simp only [List.foldl_cons]
    by_cases h : toks + count p > window / 2
    · have e2 : chunkStepG count window (gs, cur, toks) p = (gs ++ [cur], [p], count p) := by
        simp [chunkStepG, h]
      rw [e2, ih]
      simp [List.append_assoc]
    · have e2 : chunkStepG count window (gs, cur, toks) p =
          (gs, cur ++ [p], toks + count p) := by
        simp [chunkStepG, h]
      rw [e2, ih]
      simp [List.append_assoc]

theorem chunkGroups_good (count : String → Nat) (window : Nat) (hc0 : count "" = 0) :
    ∀ (ps : List String) (gs : List (List String)) (cur : List String) (toks : Nat),
      (∀ p ∈ ps, count p ≤ window / 2) →
      toks = (cur.map count).sum →
      toks ≤ window / 2 →
      (∀ g ∈ gs, JoinNE g) →
      JoinNE cur →
      (∀ g ∈ (ps.foldl (chunkStepG count window) (gs, cur, toks)).1, JoinNE g) ∧
        JoinNE (ps.foldl (chunkStepG count window) (gs, cur, toks)).2.1 ∧
        (ps.foldl (chunkStepG count window) (gs, cur, toks)).2.2 =
          (((ps.foldl (chunkStepG count window) (gs, cur, toks)).2.1).map count).sum ∧
        (ps.foldl (chunkStepG count window) (gs, cur, toks)).2.2 ≤ window / 2 := by
  intro ps
  induction ps with
  | nil =>
    intro gs cur toks hps hsum hle hgs hcur
    exact ⟨hgs, hcur, hsum, hle⟩
  | cons p t ih =>
    intro gs cur toks hps hsum hle hgs hcur
    simp only [List.foldl_cons]
    by_cases h : toks + count p > window / 2
    · have hp : count p ≤ window / 2 := hps p (List.mem_cons_self p t)
      have hpne : p ≠ "" := by
        intro he
        rw [he, hc0] at h
        omega
      have e2 : chunkStepG count window (gs, cur, toks) p = (gs ++ [cur], [p], count p) := by
        simp [chunkStepG, h]
      rw [e2]
      apply ih (gs ++ [cur]) [p] (count p)
      · intro q hq; exact hps q (List.mem_cons_of_mem p hq)
      · simp
      · exact hp
      · intro g hg
        rcases List.mem_append.mp hg with hg1 | hg2
        · exact hgs g hg1
        · rw [List.mem_singleton.mp hg2]; exact hcur
      · constructor
        · simp
        · simp [hpne]
    · have e2 : chunkStepG count window (gs, cur, toks) p =
          (gs, cur ++ [p], toks + count p) := by
        simp [chunkStepG, h]
      rw [e2]
      apply ih gs (cur ++ [p]) (toks + count p)
      · intro q hq; exact hps q (List.mem_cons_of_mem p hq)
      · simp [hsum]
      · omega
      · exact hgs
      · constructor
        · simp
        · intro he
          have hlen := congrArg List.length he
          simp at hlen
          exact hcur.1 hlen

theorem joinSep_append2 (sep : List Char) :
    ∀ (a b : List (List Char)), a ≠ [] → b ≠ [] →
      joinSep sep (a ++ b) = joinSep sep a ++ sep ++ joinSep sep b := by
  intro a
  induction a with
  | nil => intro b ha hb; exact absurd rfl ha
  | cons x a2 ih =>
    intro b ha hb
    cases a2 with
    | nil =>
      cases b with
      | nil => exact absurd rfl hb
      | cons y t => simp [joinSep]
    | cons x2 a3 =>
      have hrec := ih b (by simp) hb
      simp only [List.cons_append, joinSep, List.append_eq] at hrec ⊢
      rw [hrec]
      simp [List.append_assoc]

theorem joinSep_join (sep : List Char) :
    ∀ (gss : List (List (List Char))), (∀ g ∈ gss, g ≠ []) →
      joinSep sep (gss.map (joinSep sep)) = joinSep sep gss.flatten := by
  intro gss
  induction gss with
  | nil => intro h; rfl
  | cons g gss2 ih =>
    intro h
    cases gss2 with
    | nil => simp [joinSep]
    | cons g2 gss3 =>
      have hg : g ≠ [] := h g (by simp)
      have hg2 : g2 ≠ [] := h g2 (by simp)
      have hfl : g2 ++ gss3.flatten ≠ [] := by
        intro he
        rcases List.append_eq_nil.mp he with ⟨he1, _⟩
        exact hg2 he1
      have hrec := ih (by intro q hq; exact h q (List.mem_cons_of_mem g hq))
      simp only [List.map_cons, joinSep, List.flatten_cons] at hrec ⊢
      rw [hrec]
      rw [joinSep_append2 sep g (g2 ++ gss3.flatten) hg hfl]

theorem flatten_map_map {a b : Type} (f : a → b) :
    ∀ (gs : List (List a)), (gs.map (List.map f)).flatten = gs.flatten.map f := by
  intro gs
  induction gs with
  | nil => rfl
  | cons g t ih => simp only [List.map_cons, List.flatten_cons, List.map_append, ih]

theorem pyJoin_map_pyJoin (gs : List (List String)) (h : ∀ g ∈ gs, g ≠ []) :
    pyJoin "\n\n" (gs.map (pyJoin "\n\n")) = pyJoin "\n\n" gs.flatten := by
  apply String.ext
  simp only [pyJoin_data, List.map_map]
  have h1 : gs.map (String.data ∘ pyJoin "\n\n") =
      (gs.map (fun g => g.map String.data)).map (joinSep ("\n\n" : String).data) := by
    simp only [List.map_map]
    rfl
  rw [h1, joinSep_join]
  · congr 1
    rw [flatten_map_map]
  · intro g hg
    rcases List.mem_map.mp hg with ⟨g0, hg0, rfl⟩
    simp only [ne_eq, List.map_eq_nil_iff]
    exact h g0 hg0

theorem pyJoin_pySplit2 (content : String) :
    pyJoin "\n\n" (pySplit2 content) = content := by
  apply String.ext
  simp only [pyJoin_data, pySplit2, List.map_map]
  have h1 : (splitSeq content.data).map (String.data ∘ String.mk) = splitSeq content.data := by
    simp [Function.comp_def]
  rw [h1]
  exact joinSep_splitSeq content.data

theorem pySplit2_ne_nil (content : String) : pySplit2 content ≠ [] := by
  simp only [pySplit2, ne_eq, List.map_eq_nil_iff]
  exact splitSeq_ne_nil content.data

theorem pySplit2_ne_single_empty (content : String) (h : content ≠ "") :
    pySplit2 content ≠ [""] := by
  intro he
  apply h
  have := pyJoin_pySplit2 content
  rw [he] at this
  exact this.symm

theorem pyJoin_ne_empty (g : List String) (h : JoinNE g) : pyJoin "\n\n" g ≠ "" := by
  cases g with
  | nil => exact absurd rfl h.1
  | cons x t =>
    cases t with
    | nil =>
      have hx : x ≠ "" := by
        intro he
        exact h.2 (by rw [he])
      intro he
      apply hx
      apply String.ext
      have := congrArg String.data he
      simpa [pyJoin_data, joinSep] using this
    | cons y t2 =>
      intro he
      have := congrArg String.data he
      simp [pyJoin_data, joinSep] at this

theorem chunkGroups_full_good (count : String → Nat) (window : Nat) (hc0 : count "" = 0)
    (ps : List String) (hps : ∀ p ∈ ps, count p ≤ window / 2)
    (hnil : ps ≠ []) (hsing : ps ≠ [""]) :
    (∀ g ∈ (ps.foldl (chunkStepG count window) ([], [], 0)).1, JoinNE g) ∧
      JoinNE (ps.foldl (chunkStepG count window) ([], [], 0)).2.1 := by
  cases ps with
  | nil => exact absurd rfl hnil
  | cons p0 rest =>
    have hp0 : count p0 ≤ window / 2 := hps p0 (by simp)
    have hstep0 : chunkStepG count window ([], [], 0) p0 = ([], [p0], 0 + count p0) := by
      simp only [chunkStepG]
      rw [if_neg (by omega)]
      simp
    by_cases hp0e : p0 = ""
    · subst hp0e
      cases rest with
      | nil => exact absurd rfl hsing
      | cons p1 rest2 =>
        have hp1 : count p1 ≤ window / 2 := hps p1 (by simp)
        have hstep1 : chunkStepG count window ([], [""], 0 + count "") p1 =
            ([], ["", p1], 0 + count "" + count p1) := by
          simp only [chunkStepG]
          rw [if_neg (by omega)]
          simp
        simp only [List.foldl_cons, hstep0, hstep1]
        have hgood := chunkGroups_good count window hc0 rest2 [] ["", p1]
          (0 + count "" + count p1)
          (by intro q hq; exact hps q (by simp [hq]))
          (by simp [hc0])
          (by omega)
          (by intro g hg; simp at hg)
          (by constructor <;> simp)
        exact ⟨hgood.1, hgood.2.1⟩
    · simp only [List.foldl_cons, hstep0]
      have hgood := chunkGroups_good count window hc0 rest [] [p0] (0 + count p0)
        (by intro q hq; exact hps q (by simp [hq]))
        (by simp)
        (by omega)
        (by intro g hg; simp at hg)
        (by constructor
            · simp
            · simp [hp0e])
      exact ⟨hgood.1, hgood.2.1⟩

/-- C2 (amended): for every token counter that assigns zero to the empty
string, every window, and every nonempty content string whose blank-line
paragraphs each fit within half the window, joining the produced chunks in
order with the blank-line separator restored reproduces the content exactly,
and no produced chunk is empty. (The unamended claim fails when a paragraph
exceeds the half budget: the loop then flushes an empty chunk, see the
counterexample.) -/
theorem chunk_coverage_of_small_paragraphs (count : String → Nat) (window : Nat)
    (content : String) (hc0 : count "" = 0) (hne : content ≠ "")
    (hps : ∀ p ∈ pySplit2 content, count p ≤ window / 2) :
    pyJoin "\n\n" (chunkContent count window content) = content
      ∧ ∀ c ∈ chunkContent count window content, c ≠ "" := by
  have hgood := chunkGroups_full_good count window hc0 (pySplit2 content) hps
    (pySplit2_ne_nil content) (pySplit2_ne_single_empty content hne)
  obtain ⟨hgs, hcur⟩ := hgood
  have hcorr := chunkFold_eq_groups count window (pySplit2 content) [] [] 0
  have hflat := chunkGroups_flatten count window (pySplit2 content) [] [] 0
  simp only [List.flatten_nil, List.nil_append] at hflat
  have hcc : chunkContent count window content =
      (((pySplit2 content).foldl (chunkStepG count window) ([], [], 0)).1 ++
        [((pySplit2 content).foldl (chunkStepG count window) ([], [], 0)).2.1]).map
        (pyJoin "\n\n") := by
    unfold chunkContent chunkFold
    simp only [List.map_nil] at hcorr
    rw [hcorr]
    rw [if_pos]
    · simp
    · exact hcur.1
  have hallne : ∀ g ∈ ((pySplit2 content).foldl (chunkStepG count window) ([], [], 0)).1 ++
      [((pySplit2 content).foldl (chunkStepG count window) ([], [], 0)).2.1], JoinNE g := by
    intro g hg
    rcases List.mem_append.mp hg with hg1 | hg2
    · exact hgs g hg1
    · rw [List.mem_singleton.mp hg2]; exact hcur
  constructor
  · rw [hcc, pyJoin_map_pyJoin _ (fun g hg => (hallne g hg).1)]
    have hfl2 : (((pySplit2 content).foldl (chunkStepG count window) ([], [], 0)).1 ++
        [((pySplit2 content).foldl (chunkStepG count window) ([], [], 0)).2.1]).flatten =
        pySplit2 content := by
      rw [List.flatten_append]
      simpa using hflat
    rw [hfl2, pyJoin_pySplit2]
  · intro c hc
    rw [hcc] at hc
    rcases List.mem_map.mp hc with ⟨g, hgmem, rfl⟩
    exact pyJoin_ne_empty g (hallne g hgmem)

/-- Witness for C2: character counting, window 10, content of two small
paragraphs; the amended coverage statement evaluates as claimed. -/
theorem chunk_coverage_of_small_paragraphs_witness :
    pyJoin "\n\n" (chunkContent String.length 10 "ab\n\ncd") = "ab\n\ncd"
      ∧ ∀ c ∈ chunkContent String.length 10 "ab\n\ncd", c ≠ "" :=
  chunk_coverage_of_small_paragraphs String.length 10 "ab\n\ncd" rfl (by decide) (by decide)

/- ---------------------------------------------------------------------------
C6: structure of get_full_content and ancestor aggregation.
--------------------------------------------------------------------------- -/

theorem fullContentAux_out_of_range (st : Store) :
    ∀ (f i : Nat), st.length ≤ i → getFullContentAux st f i = "" := by
  intro f i hi
  cases f with
  | zero => rfl
  | succ f2 =>
    have ht : titleAt st i = "" := by
      have : st[i]? = none := by rw [List.getElem?_eq_none]; omega
      simp [titleAt, this]
    have hco : contentAt st i = [] := by
      have : st[i]? = none := by rw [List.getElem?_eq_none]; omega
      simp [contentAt, this]
    have hch : childIds st i = [] := by
      unfold childIds
      apply List.filter_eq_nil_iff.mpr
      intro j hj
      have hjl := List.mem_range.mp hj
      simp only [decide_eq_true_eq]
      intro hcon
      omega
    simp [getFullContentAux, ht, hco, hch]
    rfl

theorem pyJoin_cons2 (sep x y : String) (t : List String) :
    pyJoin sep (x :: y :: t) = x ++ sep ++ pyJoin sep (y :: t) := by
  apply String.ext
  simp [pyJoin_data, joinSep, String.data_append]

theorem fullContentAux_congr (st : Store) :
    ∀ (f g i : Nat), st.length ≤ f + i → st.length ≤ g + i →
      getFullContentAux st f i = getFullContentAux st g i := by
  intro f
  induction f with
  | zero =>
    intro g i hf hg
    rw [fullContentAux_out_of_range st 0 i (by omega),
      fullContentAux_out_of_range st g i (by omega)]
  | succ f2 ih =>
    intro g i hf hg
    cases g with
    | zero =>
      rw [fullContentAux_out_of_range st (f2 + 1) i (by omega),
        fullContentAux_out_of_range st 0 i (by omega)]
    | succ g2 =>
      simp only [getFullContentAux]
      have hmap : (childIds st i).map (getFullContentAux st f2) =
          (childIds st i).map (getFullContentAux st g2) := by
        apply List.map_congr_left
        intro j hj
        have hm := mem_childIds st i j hj
        exact ih g2 j (by omega) (by omega)
      rw [hmap]

/-- DescOf st i d: section d lies strictly below section i in the stored
tree, through the subsection lists. -/
inductive DescOf (st : Store) : Nat → Nat → Prop where
  | child : ∀ i j, j ∈ childIds st i → DescOf st i j
  | step : ∀ i j k, j ∈ childIds st i → DescOf st j k → DescOf st i k

theorem getFullContent_unfold (st : Store) (i : Nat) :
    getFullContent st i =
      (if titleAt st i ≠ "" then "## " ++ titleAt st i ++ "\n" ++ "\n" else "")
        ++ pyJoin "\n" (contentAt st i)
        ++ sconcat ((childIds st i).map (fun j => "\n" ++ getFullContent st j)) := by
  have h1 : getFullContent st i = getFullContentAux st (st.length + 1) i := by
    unfold getFullContent
    exact fullContentAux_congr st st.length (st.length + 1) i (by omega) (by omega)
  rw [h1]
  simp only [getFullContentAux]
  have hch : (childIds st i).map (getFullContentAux st st.length) =
      (childIds st i).map (getFullContent st) := by
    apply List.map_congr_left
    intro j hj
    rfl
  rw [hch]
  have hmm : (List.map (getFullContent st) (childIds st i)).map (fun y => "\n" ++ y) =
      (childIds st i).map (fun j => "\n" ++ getFullContent st j) := by
    rw [List.map_map]
    rfl
  by_cases ht : titleAt st i = ""
  · rw [if_neg (by simp [ht]), if_neg (by simp [ht])]
    rw [string_empty_append]
    simp only [List.nil_append, List.singleton_append]
    rw [pyJoin_cons, hmm]
  · rw [if_pos ht, if_pos ht]
    simp only [List.cons_append, List.nil_append]
    rw [pyJoin_cons2, pyJoin_cons, hmm]
    simp only [String.append_assoc]

theorem getFullContent_child_inside (st : Store) (i j : Nat) (hj : j ∈ childIds st i) :
    (getFullContent st j).data <:+: (getFullContent st i).data := by
  rw [getFullContent_unfold st i]
  have h1 : ("\n" ++ getFullContent st j).data ∈
      ((childIds st i).map (fun k => "\n" ++ getFullContent st k)).map String.data := by
    apply List.mem_map_of_mem
    exact List.mem_map_of_mem _ hj
  have h2 : ("\n" ++ getFullContent st j).data <:+:
      (sconcat ((childIds st i).map (fun k => "\n" ++ getFullContent st k))).data := by
    rw [sconcat_data]
    exact List.infix_of_mem_flatten h1
  have h3 : (getFullContent st j).data <:+: ("\n" ++ getFullContent st j).data := by
    apply List.IsSuffix.isInfix
    rw [String.data_append]
    exact List.suffix_append _ _
  have h4 := h3.trans h2
  apply h4.trans
  apply List.IsSuffix.isInfix
  rw [String.data_append]
  exact List.suffix_append _ _

/-- C6: a section's rendered full content is its heading marker and its own
content blocks followed by the recursively rendered content of each
subsection in document order, and consequently every strict descendant's
rendered content occurs inside its ancestor's rendered content. The
rendering depends only on the section's own subtree, so it never includes a
sibling's content. -/
theorem full_content_structure_and_descendants (st : Store) (i : Nat) :
    (getFullContent st i =
        (if titleAt st i ≠ "" then "## " ++ titleAt st i ++ "\n" ++ "\n" else "")
          ++ pyJoin "\n" (contentAt st i)
          ++ sconcat ((childIds st i).map (fun j => "\n" ++ getFullContent st j)))
      ∧ ∀ d, DescOf st i d → (getFullContent st d).data <:+: (getFullContent st i).data := by
  constructor
  · exact getFullContent_unfold st i
  · intro d hd
    induction hd with
    | child i2 j hj => exact getFullContent_child_inside st i2 j hj
    | step i2 j k hj hdk ih =>
      exact ih.trans (getFullContent_child_inside st i2 j hj)

/-- Witness for C6 on the spec's second end-to-end scenario: in the tree
built from h1 API, h2 GET /users, p desc, the nested section's rendered
content occurs inside the ancestor's rendered content. -/
theorem full_content_structure_and_descendants_witness :
    (getFullContent
        [⟨"ROOT", 0, [], none⟩, ⟨"API", 1, [], some 0⟩, ⟨"GET /users", 2, ["desc"], some 1⟩]
        2).data <:+:
      (getFullContent
        [⟨"ROOT", 0, [], none⟩, ⟨"API", 1, [], some 0⟩, ⟨"GET /users", 2, ["desc"], some 1⟩]
        1).data :=
  (full_content_structure_and_descendants
      [⟨"ROOT", 0, [], none⟩, ⟨"API", 1, [], some 0⟩, ⟨"GET /users", 2, ["desc"], some 1⟩]
      1).2
    2 (DescOf.child 1 2 (by decide))

/- ---------------------------------------------------------------------------
Lookup lemmas for the current_sections association list.
--------------------------------------------------------------------------- -/

theorem lookup_alInsert (cs : List (Nat × Option Nat)) (k : Nat) (v : Option Nat) (q : Nat) :
    (alInsert cs k v).lookup q = if q = k then some v else cs.lookup q := by
  induction cs with
  | nil =>
    by_cases h : q = k
    · simp [alInsert, List.lookup, h]
    · simp [alInsert, List.lookup, h, (by simpa using h : (q == k) = false)]
  | cons kv t ih =>
    obtain ⟨k1, v1⟩ := kv
    by_cases h1 : k1 = k
    · subst h1
      by_cases h : q = k1
      · subst h
        simp [alInsert, List.lookup]
      · simp [alInsert, List.lookup, (by simpa using h : (q == k1) = false), h]
    · by_cases h : q = k1
      · subst h
        have hqk : (q = k) = False := by
          simp only [eq_iff_iff, iff_false]
          intro he; exact h1 he
        simp [alInsert, if_neg h1, List.lookup_cons, hqk]
      · simp only [alInsert, if_neg h1, List.lookup_cons,
          (by simpa using h : (q == k1) = false)]
        exact ih

theorem closeDeeper_cons (k1 : Nat) (v1 : Option Nat) (t : List (Nat × Option Nat))
    (lvl : Nat) :
    closeDeeper ((k1, v1) :: t) lvl =
      (if lvl < k1 then (k1, (none : Option Nat)) else (k1, v1)) :: closeDeeper t lvl := by
  by_cases h : lvl < k1 <;> simp [closeDeeper, h]

theorem lookup_closeDeeper (cs : List (Nat × Option Nat)) (lvl : Nat) (q : Nat) :
    (closeDeeper cs lvl).lookup q =
      if lvl < q then (cs.lookup q).map (fun _ => (none : Option Nat)) else cs.lookup q := by
  induction cs with
  | nil => by_cases h : lvl < q <;> simp [closeDeeper, List.lookup, h]
  | cons kv t ih =>
    obtain ⟨k1, v1⟩ := kv
    rw [closeDeeper_cons]
    by_cases hq : q = k1
    · subst hq
      by_cases h : lvl < q
      · rw [if_pos h]
        simp [List.lookup_cons, h]
      · rw [if_neg h]
        simp [List.lookup_cons, h]
    · have hbeq : (q == k1) = false := by simpa using hq
      by_cases h : lvl < k1
      · rw [if_pos h]
        rw [List.lookup_cons, List.lookup_cons]
        simp only [hbeq]
        exact ih
      · rw [if_neg h]
        rw [List.lookup_cons, List.lookup_cons]
        simp only [hbeq]
        exact ih

/- ---------------------------------------------------------------------------
The builder invariant: stores are parent-decreasing, the map values point
into the store, and slot 0 always holds the synthetic root.
--------------------------------------------------------------------------- -/

/-- Structural invariant every reachable builder state satisfies. -/
def StInv (st : BState) : Prop :=
  (∀ j p, parentIdOf st.store j = some p → p < j) ∧
    (∀ k id, st.cs.lookup k = some (some id) → id < st.store.length) ∧
    (∃ c, st.store[0]? = some ⟨"ROOT", 0, c, none⟩)

theorem addContentAt_length (store : Store) (i : Nat) (s : String) :
    (addContentAt store i s).length = store.length := by
  unfold addContentAt
  cases h : store[i]? with
  | none => rfl
  | some r => simp

theorem addContentAt_getElem (store : Store) (i : Nat) (s : String) (j : Nat) :
    (addContentAt store i s)[j]? = (store[j]?).map
      (fun r => if j = i then
        { r with content := if pyStrip s ≠ "" then r.content ++ [pyStrip s] else r.content }
        else r) := by
  unfold addContentAt
  cases h : store[i]? with
  | none =>
    cases hj : store[j]? with
    | none => rfl
    | some r =>
      by_cases he : j = i
      · subst he; rw [hj] at h; cases h
      · simp [hj, he]
  | some r =>
    rw [List.getElem?_set]
    by_cases he : i = j
    · subst he
      have hlen : i < store.length := by
        by_contra hc
        rw [List.getElem?_eq_none (by omega)] at h
        cases h
      simp [hlen, h]
    · have : ¬ (j = i) := fun hh => he hh.symm
      simp [he, this]

theorem addContentAt_parentIdOf (store : Store) (i : Nat) (s : String) (j : Nat) :
    parentIdOf (addContentAt store i s) j = parentIdOf store j := by
  unfold parentIdOf
  rw [addContentAt_getElem]
  cases hj : store[j]? with
  | none => rfl
  | some r => by_cases he : j = i <;> simp [he]

theorem addContentAt_root (store : Store) (i : Nat) (s : String) (c0 : List String)
    (h3 : store[0]? = some ⟨"ROOT", 0, c0, none⟩) :
    ∃ c, (addContentAt store i s)[0]? = some ⟨"ROOT", 0, c, none⟩ := by
  rw [addContentAt_getElem, h3]
  by_cases he : (0 : Nat) = i
  · exact ⟨if pyStrip s ≠ "" then c0 ++ [pyStrip s] else c0, by simp [he]⟩
  · exact ⟨c0, by simp [he]⟩

theorem contentStep_cs (st : BState) (nd : Node) : (contentStep st nd).cs = st.cs := by
  unfold contentStep
  split
  · rfl
  · split <;> rfl

theorem contentStep_store_cases (st : BState) (nd : Node) :
    (contentStep st nd).store = st.store ∨
      ∃ i s, (contentStep st nd).store = addContentAt st.store i s := by
  unfold contentStep
  split
  · exact Or.inl rfl
  · split
    · rename_i i hd hraw
      exact Or.inr ⟨i, _, rfl⟩
    · exact Or.inl rfl

theorem parentChoice_lt (cs : List (Nat × Option Nat)) (pl : Nat) (len : Nat)
    (h2 : ∀ k id, cs.lookup k = some (some id) → id < len) (hlen0 : 0 < len) :
    parentChoice cs pl < len := by
  unfold parentChoice
  cases hlk : cs.lookup pl with
  | none => exact hlen0
  | some v =>
    cases v with
    | none => exact hlen0
    | some pid => exact h2 pl pid hlk

theorem buildStep_inv (st st' : BState) (nd : Node)
    (h : buildStep st nd = .ok st') (hinv : StInv st) : StInv st' := by
  obtain ⟨h1, h2, c0, h3⟩ := hinv
  have hlen0 : 0 < st.store.length := by
    by_contra hc
    rw [List.getElem?_eq_none (by omega)] at h3
    cases h3
  unfold buildStep at h
  by_cases hl : 0 < getHeadingLevel nd.tag
  · rw [if_pos hl] at h
    unfold headingStep at h
    cases hsc : skipClosed st.cs (skipAbsent st.cs (getHeadingLevel nd.tag - 1)) with
    | error e => rw [hsc] at h; cases h
    | ok pl =>
      rw [hsc] at h
      simp only [Except.ok.injEq] at h
      subst h
      refine ⟨?_, ?_, ?_⟩
      · intro j p hp
        unfold parentIdOf at hp
        rw [List.getElem?_append] at hp
        by_cases hj : j < st.store.length
        · rw [if_pos hj] at hp
          exact h1 j p hp
        · rw [if_neg hj] at hp
          by_cases hj2 : j - st.store.length = 0
          · rw [hj2] at hp
            simp only [List.getElem?_cons_zero, Option.some_bind, Option.some.injEq] at hp
            have hple : parentChoice st.cs pl < st.store.length :=
              parentChoice_lt st.cs pl st.store.length h2 hlen0
            omega
          · rw [List.getElem?_cons, if_neg hj2] at hp
            simp at hp
      · intro k id hk
        simp only [List.length_append, List.length_cons, List.length_nil]
        rw [lookup_closeDeeper] at hk
        by_cases hdeep : getHeadingLevel nd.tag < k
        · rw [if_pos hdeep] at hk
          cases hx : (alInsert st.cs (getHeadingLevel nd.tag)
              (some st.store.length)).lookup k with
          | none => rw [hx] at hk; cases hk
          | some v => rw [hx] at hk; simp at hk
        · rw [if_neg hdeep, lookup_alInsert] at hk
          by_cases hkl : k = getHeadingLevel nd.tag
          · rw [if_pos hkl] at hk
            have hid : st.store.length = id := by simpa using hk
            omega
          · rw [if_neg hkl] at hk
            have := h2 k id hk
            omega
      · refine ⟨c0, ?_⟩
        rw [List.getElem?_append, if_pos hlen0]
        exact h3
  · rw [if_neg hl] at h
    simp only [Except.ok.injEq] at h
    subst h
    refine ⟨?_, ?_, ?_⟩
    · intro j p hp
      rcases contentStep_store_cases st nd with hs | ⟨i2, s2, hs⟩
      · rw [hs] at hp; exact h1 j p hp
      · rw [hs, addContentAt_parentIdOf] at hp; exact h1 j p hp
    · intro k id2 hk
      rw [contentStep_cs] at hk
      rcases contentStep_store_cases st nd with hs | ⟨i2, s2, hs⟩
      · rw [hs]; exact h2 k id2 hk
      · rw [hs, addContentAt_length]; exact h2 k id2 hk
    · rcases contentStep_store_cases st nd with hs | ⟨i2, s2, hs⟩
      · rw [hs]; exact ⟨c0, h3⟩
      · rw [hs]; exact addContentAt_root st.store i2 s2 c0 h3

theorem foldlM_except_inv {a s e : Type} (P : s → Prop) (f : s → a → Except e s)
    (hstep : ∀ x1 x2 nd, f x1 nd = .ok x2 → P x1 → P x2) :
    ∀ (l : List a) (s1 s2 : s), l.foldlM f s1 = .ok s2 → P s1 → P s2 := by
  intro l
  induction l with
  | nil =>
    intro s1 s2 hf hp
    simp only [List.foldlM_nil, pure, Except.pure] at hf
    cases hf
    exact hp
  | cons x t ih =>
    intro s1 s2 hf hp
    simp only [List.foldlM_cons] at hf
    cases hx : f s1 x with
    | error e2 => rw [hx] at hf; simp [bind, Except.bind] at hf
    | ok s3 =>
      rw [hx] at hf
      simp only [bind, Except.bind] at hf
      exact ih s3 s2 hf (hstep s1 s3 x hx hp)

theorem build_inv (nodes : List Node) (st : BState)
    (hb : buildSectionTree nodes = .ok st) : StInv st := by
  apply foldlM_except_inv StInv buildStep
    (fun x1 x2 nd hf hp => buildStep_inv x1 x2 nd hf hp) nodes initState st hb
  refine ⟨?_, ?_, ?_⟩
  · intro j p hp
    unfold parentIdOf initState at hp
    cases hj : ([⟨"ROOT", 0, [], none⟩] : Store)[j]? with
    | none => rw [hj] at hp; cases hp
    | some r =>
      rw [hj] at hp
      have : j = 0 := by
        by_contra hc
        rw [List.getElem?_cons, if_neg hc] at hj
        simp at hj
      subst this
      simp only [List.getElem?_cons_zero, Option.some.injEq] at hj
      rw [← hj] at hp
      cases hp
  · intro k id hk
    unfold initState at hk
    by_cases h : k = 0
    · subst h
      simp only [List.lookup, beq_self_eq_true, Option.some.injEq] at hk
      simp [initState, ← hk]
    · rw [List.lookup, (show (k == 0) = false by simpa using h)] at hk
      simp [List.lookup] at hk
  · exact ⟨[], rfl⟩

/- ---------------------------------------------------------------------------
C5: breadcrumbs. On parent-decreasing stores the walk up the parent chain is
insensitive to extra fuel, giving the recursive characterization.
--------------------------------------------------------------------------- -/

theorem bcAux_no_parent (st : Store) (i : Nat) (hp : parentIdOf st i = none) :
    ∀ f, bcAux st f i = [titleAt st i] := by
  intro f
  cases f with
  | zero => rfl
  | succ f2 => simp [bcAux, hp]

theorem bcAux_fuel (st : Store) (hpd : ParentDec st) :
    ∀ (i f : Nat), i ≤ f → bcAux st f i = getBreadcrumbs st i := by
  intro i
  induction i using Nat.strong_induction_on with
  | _ i ih =>
    intro f hf
    cases hp : parentIdOf st i with
    | none => rw [bcAux_no_parent st i hp, getBreadcrumbs, bcAux_no_parent st i hp]
    | some p =>
      have hpi : p < i := hpd i p hp
      have hi1 : 1 ≤ i := by omega
      have hf1 : 1 ≤ f := by omega
      obtain ⟨f2, rfl⟩ : ∃ f2, f = f2 + 1 := ⟨f - 1, by omega⟩
      obtain ⟨i2, hi2⟩ : ∃ i2, i = i2 + 1 := ⟨i - 1, by omega⟩
      have hstep1 : bcAux st (f2 + 1) i = bcAux st f2 p ++ [titleAt st i] := by
        simp [bcAux, hp]
      have hp2 : parentIdOf st (i2 + 1) = some p := by
        rw [← hi2]; exact hp
      have hstep2 : getBreadcrumbs st i = bcAux st i2 p ++ [titleAt st i] := by
        unfold getBreadcrumbs
        rw [hi2]
        simp [bcAux, hp2]
      rw [hstep1, hstep2]
      have h1 : bcAux st f2 p = getBreadcrumbs st p := ih p hpi f2 (by omega)
      have h2 : bcAux st i2 p = getBreadcrumbs st p := ih p hpi i2 (by omega)
      rw [h1, h2]

/-- C5 (amended): in every built tree, the breadcrumbs of a subsection are
its parent's breadcrumbs extended with its own title (so they list ancestor
titles oldest first down to the section itself), and the synthetic root's
breadcrumbs are exactly its title ROOT: contrary to the claim, the walk does
not exclude the synthetic root's title, so every section's breadcrumbs begin
with ROOT. -/
theorem breadcrumbs_child_extends_parent (nodes : List Node) (st : BState)
    (hb : buildSectionTree nodes = .ok st) (i j : Nat) (hj : j ∈ childIds st.store i) :
    getBreadcrumbs st.store j = getBreadcrumbs st.store i ++ [titleAt st.store j]
      ∧ getBreadcrumbs st.store 0 = ["ROOT"] := by
  obtain ⟨h1, h2, c0, h3⟩ := build_inv nodes st hb
  obtain ⟨hij, hjlen, hpar⟩ := mem_childIds st.store i j hj
  constructor
  · obtain ⟨j2, hj2⟩ : ∃ j2, j = j2 + 1 := ⟨j - 1, by omega⟩
    have hpar2 : parentIdOf st.store (j2 + 1) = some i := by
      rw [← hj2]; exact hpar
    have hstep : getBreadcrumbs st.store j = bcAux st.store j2 i ++ [titleAt st.store j] := by
      unfold getBreadcrumbs
      rw [hj2]
      simp [bcAux, hpar2]
    rw [hstep, bcAux_fuel st.store h1 i j2 (by omega)]
  · have hp0 : parentIdOf st.store 0 = none := by
      unfold parentIdOf; rw [h3]; rfl
    have ht0 : titleAt st.store 0 = "ROOT" := by
      unfold titleAt; rw [h3]; rfl
    unfold getBreadcrumbs
    rw [bcAux_no_parent st.store 0 hp0, ht0]

/-- Witness for C5: in the tree built from one h1 heading, the section's
breadcrumbs extend the root's breadcrumbs with its own title, and the root's
breadcrumbs are exactly ROOT. -/
theorem breadcrumbs_child_extends_parent_witness :
    getBreadcrumbs [⟨"ROOT", 0, [], none⟩, ⟨"A", 1, [], some 0⟩] 1 =
        getBreadcrumbs [⟨"ROOT", 0, [], none⟩, ⟨"A", 1, [], some 0⟩] 0
          ++ [titleAt [⟨"ROOT", 0, [], none⟩, ⟨"A", 1, [], some 0⟩] 1]
      ∧ getBreadcrumbs [⟨"ROOT", 0, [], none⟩, ⟨"A", 1, [], some 0⟩] 0 = ["ROOT"] :=
  breadcrumbs_child_extends_parent [hNode 1 "A"]
    ⟨[⟨"ROOT", 0, [], none⟩, ⟨"A", 1, [], some 0⟩], [(0, some 0), (1, some 1)]⟩
    (by decide) 0 1 (by decide)

/- ---------------------------------------------------------------------------
C8: which sections reach the flattened output.
--------------------------------------------------------------------------- -/

theorem flattenAux_eq_filter_preorder (st : Store) :
    ∀ (f i : Nat),
      flattenAux st f i =
        ((preAux st f i).filter (fun j => decide (titleAt st j ≠ "ROOT"))).map (mkFlat st) := by
  intro f
  induction f with
  | zero => intro i; rfl
  | succ f2 ih =>
    intro i
    simp only [flattenAux, preAux, List.filter_cons]
    by_cases ht : titleAt st i ≠ "ROOT"
    · rw [if_pos ht, if_pos (decide_eq_true ht)]
      simp only [List.map_cons, List.cons_append, List.singleton_append]
      congr 1
      rw [List.filter_flatMap, List.map_flatMap]
      exact List.flatMap_congr (fun j _ => ih j)
    · rw [if_neg ht, if_neg (by simpa using ht)]
      simp only [List.nil_append]
      rw [List.filter_flatMap, List.map_flatMap]
      exact List.flatMap_congr (fun j _ => ih j)

theorem pyJoin_singleton (sep x : String) : pyJoin sep [x] = x := by
  apply String.ext
  simp [pyJoin_data, joinSep]

theorem pyStrip_empty : pyStrip "" = "" := rfl

theorem pyJoin_nl_cons_ne_empty (x : String) (t : List String) (hx : x ≠ "") :
    pyJoin "\n" (x :: t) ≠ "" := by
  cases t with
  | nil => rw [pyJoin_singleton]; exact hx
  | cons y t2 =>
    intro he
    have := congrArg String.data he
    simp [pyJoin_data, joinSep] at this

theorem collect_mem_strip : ∀ (nodes : List Node) (x : String),
    x ∈ collectUntilHeading nodes → pyStrip x ≠ "" := by
  intro nodes
  induction nodes with
  | nil => intro x hx; simp [collectUntilHeading] at hx
  | cons n rest ih =>
    intro x hx
    unfold collectUntilHeading at hx
    by_cases hh : isH14 n.tag
    · rw [if_pos hh] at hx
      simp at hx
    · rw [if_neg hh] at hx
      by_cases hr : pyStrip n.raw ≠ ""
      · rw [if_pos hr] at hx
        rcases List.mem_append.mp hx with hx1 | hx2
        · rw [List.mem_singleton.mp hx1]; exact hr
        · exact ih x hx2
      · rw [if_neg hr] at hx
        simp only [List.nil_append] at hx
        exact ih x hx

/-- C8 (amended): the main flattener keeps exactly the sections whose title
differs from the string ROOT, regardless of whether they carry content
blocks (the flattened list is the pre-order traversal filtered on that title
test alone); the title-and-content requirement of the claim is implemented
only in the copy variant's flat splitter, whose every emitted section has a
nonempty title and a nonempty content string. -/
theorem flatten_membership_characterization :
    (∀ (st : Store),
        flattenSections st =
          ((preAux st st.length 0).filter (fun j => decide (titleAt st j ≠ "ROOT"))).map
            (mkFlat st))
      ∧ (∀ (nodes : List Node) (e : String × String),
          e ∈ splitCopy nodes → e.1 ≠ "" ∧ e.2 ≠ "") := by
  constructor
  · intro st
    exact flattenAux_eq_filter_preorder st st.length 0
  · intro nodes
    induction nodes with
    | nil => intro e he; simp [splitCopy] at he
    | cons n rest ih =>
      intro e he
      unfold splitCopy at he
      rcases List.mem_append.mp he with he1 | he2
      · by_cases hh : isH14 n.tag
        · rw [if_pos hh] at he1
          by_cases hc : pyStrip n.text ≠ "" ∧ collectUntilHeading rest ≠ []
          · rw [if_pos hc] at he1
            rw [List.mem_singleton.mp he1]
            refine ⟨hc.1, ?_⟩
            cases hcol : collectUntilHeading rest with
            | nil => exact absurd hcol hc.2
            | cons x t2 =>
              simp only [hcol]
              apply pyJoin_nl_cons_ne_empty
              intro hxe
              have hmem : x ∈ collectUntilHeading rest := by rw [hcol]; simp
              have := collect_mem_strip rest x hmem
              rw [hxe] at this
              exact this pyStrip_empty
          · rw [if_neg hc] at he1
            simp at he1
        · rw [if_neg hh] at he1
          simp at he1
      · exact ih e he2

/-- Witness for C8: on the stream h1 A followed by a paragraph, the copy
variant's splitter emits one section with nonempty title and content. -/
theorem flatten_membership_characterization_witness :
    ("A" : String) ≠ "" ∧ ("<p>x</p>" : String) ≠ "" :=
  flatten_membership_characterization.2 [hNode 1 "A", pNode "x"] ("A", "<p>x</p>")
    (by decide)

/- ---------------------------------------------------------------------------
C7: failures are caught per unit and do not spread to siblings.
--------------------------------------------------------------------------- -/

/-- C7: for a section whose prompt fits the window, process_section returns
exactly the gateway call's unit result; the except handler and the explicit
checks in _call_gpt turn a raised exception, an empty choices list, a
refusal, or a missing parsed payload into a unit-local None; and the
per-section loop factors through pre, unit, post, so one unit's None only
removes that unit from the output and leaves the siblings' results
untouched. -/
theorem process_section_failure_isolated (count : String → Nat) (window : Nat)
    (oracle : SecDict → GwOutcome) (f : Nat) (d : SecDict)
    (pre post : List SecDict)
    (h : ¬ count (createPrompt d.title d.content) > window) :
    processSectionF count window oracle (f + 1) d = some (callGpt (oracle d))
      ∧ (∀ o, o = GwOutcome.raiseExn ∨ o = GwOutcome.emptyChoices ∨ o = GwOutcome.refusal
            ∨ o = GwOutcome.parsedMissing → callGpt o = none)
      ∧ processAllF count window oracle (f + 1) (pre ++ d :: post) =
          (processAllF count window oracle (f + 1) pre).bind (fun a =>
            (processSectionF count window oracle (f + 1) d).bind (fun m =>
              (processAllF count window oracle (f + 1) post).map
                (fun b => a ++ m.toList ++ b))) := by
  refine ⟨?_, ?_, ?_⟩
  · simp only [processSectionF]
    rw [if_neg h]
  · intro o ho
    rcases ho with rfl | rfl | rfl | rfl <;> rfl
  · unfold processAllF
    rw [List.mapM_append, List.mapM_cons]
    cases hpre : pre.mapM (processSectionF count window oracle (f + 1)) with
    | none => simp [hpre]
    | some a =>
      cases hd : processSectionF count window oracle (f + 1) d with
      | none => simp [hpre, hd]
      | some m =>
        cases hpost : post.mapM (processSectionF count window oracle (f + 1)) with
        | none => simp [hpre, hd, hpost]
        | some b =>
          simp [hpre, hd, hpost, List.filterMap_append]
          cases m <;> simp

/-- Witness for C7: a refusal outcome on a small section yields the
unit-local None. -/
theorem process_section_failure_isolated_witness :
    processSectionF String.length 100000 (fun _ => GwOutcome.refusal) 2 ⟨"T", "C", []⟩ =
      some none := by
  have h := (process_section_failure_isolated String.length 100000
    (fun _ => GwOutcome.refusal) 1 ⟨"T", "C", []⟩ [] [] (by decide)).1
  simpa using h

/- ---------------------------------------------------------------------------
C9: the classify-or-re-chunk recursion does not terminate on a single
oversized paragraph: the chunker returns the same paragraph as a chunk, the
chunk's prompt is still oversized, and the recursion repeats forever. The
outer Option of processSectionF marks divergence: none means the given
recursion-depth budget was exhausted, and no budget suffices here.
--------------------------------------------------------------------------- -/

/-- C9: the claim says re-chunking always terminates via a depth bound or
strictly shrinking units. The code has neither: with the character-count
estimator and window 2, the single-paragraph content aaaa yields a prompt
over the window at every depth (the title only grows by the Part suffix and
the content is passed through unchanged), so for every recursion-depth
budget the dispatch runs out of fuel: the recursion is infinite. -/
theorem process_large_section_no_fuel_suffices (oracle : SecDict → GwOutcome) :
    ∀ (f : Nat) (t : String) (bc : List String),
      processSectionF String.length 2 oracle f ⟨t, "aaaa", bc⟩ = none := by
  intro f
  induction f with
  | zero => intro t bc; rfl
  | succ f2 ih =>
    intro t bc
    have hbig : String.length (createPrompt t "aaaa") > 2 := by
      unfold createPrompt
      simp only [String.length_append]
      rw [show ("aaaa" : String).length = 4 from rfl]
      omega
    simp only [processSectionF]
    rw [if_pos hbig]
    rw [show chunkContent String.length 2 "aaaa" = ["", "aaaa"] from by decide]
    rw [show (["", "aaaa"] : List String).enum = [(0, ""), (1, "aaaa")] from rfl]
    have h2 : processSectionF String.length 2 oracle f2
        (mkChunkDict ⟨t, "aaaa", bc⟩ 1 "aaaa") = none := by
      unfold mkChunkDict
      exact ih _ _
    cases h1 : processSectionF String.length 2 oracle f2 (mkChunkDict ⟨t, "aaaa", bc⟩ 0 "") with
    | none => simp [List.mapM, List.mapM.loop, h1]
    | some r1 => simp [List.mapM, List.mapM.loop, h1, h2]

/- ---------------------------------------------------------------------------
C1: the attachment rule of the tree builder. Specification-side notions are
defined from the node stream alone: the heading level at a stream position,
the number of headings before a position (which determines the section id
the builder assigns), openness of an earlier heading at a later time, and
the nearest preceding still-open strictly-shallower heading.
--------------------------------------------------------------------------- -/

/-- Heading level of the stream element at position i (0 when out of range
or not a heading). -/
def levelAt (nodes : List Node) (i : Nat) : Nat :=
  match nodes[i]? with
  | some n => getHeadingLevel n.tag
  | none => 0

/-- Text of the stream element at position i. -/
def textAt (nodes : List Node) (i : Nat) : String :=
  match nodes[i]? with
  | some n => n.text
  | none => ""

/-- Number of heading elements strictly before position i. -/
def hc (nodes : List Node) (i : Nat) : Nat :=
  ((nodes.take i).filter (fun n => decide (0 < getHeadingLevel n.tag))).length

/-- The store id the builder assigns to the heading at stream position i
(ids are handed out in order, after the root's id 0). -/
def secIdOf (nodes : List Node) (i : Nat) : Nat := hc nodes i + 1

/-- The heading at position j is still open when position i is processed: no
heading of equal or shallower level occurred in between. -/
def OpenAt (nodes : List Node) (j i : Nat) : Prop :=
  0 < levelAt nodes j ∧ j < i ∧
    ∀ k, k < i → j < k → 0 < levelAt nodes k → levelAt nodes j < levelAt nodes k

instance openAtDec (nodes : List Node) (j i : Nat) : Decidable (OpenAt nodes j i) := by
  unfold OpenAt
  infer_instance

/-- The nearest preceding still-open heading of strictly smaller level than
the heading at position i, given by its stream position. -/
def specParentIdx (nodes : List Node) (i : Nat) : Option Nat :=
  ((List.range i).filter
    (fun j => decide (OpenAt nodes j i ∧ levelAt nodes j < levelAt nodes i))).getLast?

/-- The store id of the section the heading at position i must attach to:
the nearest preceding open shallower section, or the synthetic root. -/
def expectedParentId (nodes : List Node) (i : Nat) : Nat :=
  match specParentIdx nodes i with
  | some j => secIdOf nodes j
  | none => 0

/-- The last heading at exactly level l before position i. -/
def lastHeadingAt (nodes : List Node) (i l : Nat) : Option Nat :=
  ((List.range i).filter (fun j => decide (levelAt nodes j = l))).getLast?

/-- A heading strictly shallower than l occurred after j and before i,
which closed the level-l entry. -/
def ClosedAfter (nodes : List Node) (j i l : Nat) : Prop :=
  ∃ k, k < i ∧ j < k ∧ 0 < levelAt nodes k ∧ levelAt nodes k < l

theorem getLast?_filter_range_none (p : Nat → Bool) (i : Nat) :
    ((List.range i).filter p).getLast? = none ↔ ∀ j, j < i → p j = false := by
  rw [List.getLast?_eq_none_iff, List.filter_eq_nil_iff]
  constructor
  · intro h j hj
    have := h j (List.mem_range.mpr hj)
    simpa using this
  · intro h j hj
    simp [h j (List.mem_range.mp hj)]

theorem getLast?_filter_range_some (p : Nat → Bool) :
    ∀ (i j : Nat),
      ((List.range i).filter p).getLast? = some j ↔
        p j = true ∧ j < i ∧ ∀ k, j < k → k < i → p k = false := by
  intro i
  induction i with
  | zero =>
    intro j
    simp only [List.range_zero, List.filter_nil, List.getLast?_nil]
    constructor
    · intro h; cases h
    · intro ⟨_, h, _⟩; omega
  | succ i2 ih =>
    intro j
    rw [List.range_succ, List.filter_append]
    by_cases hp : p i2 = true
    · rw [show List.filter p [i2] = [i2] from by simp [hp]]
      rw [List.getLast?_concat]
      constructor
      · intro h
        have hji : j = i2 := by
          cases h; rfl
        subst hji
        exact ⟨hp, by omega, fun k h1 h2 => by omega⟩
      · intro ⟨hpj, hji, hall⟩
        by_cases he : j = i2
        · rw [he]
        · exfalso
          have hji2 : j < i2 := by omega
          have := hall i2 (by omega) (by omega)
          rw [this] at hp
          cases hp
    · rw [show List.filter p [i2] = [] from by simp [hp]]
      rw [List.append_nil]
      rw [ih j]
      constructor
      · intro ⟨hpj, hji, hall⟩
        refine ⟨hpj, by omega, fun k h1 h2 => ?_⟩
        by_cases hk : k = i2
        · subst hk; simpa using hp
        · exact hall k h1 (by omega)
      · intro ⟨hpj, hji, hall⟩
        have hji2 : j < i2 := by
          by_contra hc
          have : j = i2 := by omega
          subst this
          rw [hpj] at hp
          exact hp rfl
        exact ⟨hpj, hji2, fun k h1 h2 => hall k h1 (by omega)⟩

theorem lastHeadingAt_some_iff (nodes : List Node) (i l j : Nat) :
    lastHeadingAt nodes i l = some j ↔
      levelAt nodes j = l ∧ j < i ∧ ∀ k, j < k → k < i → levelAt nodes k ≠ l := by
  unfold lastHeadingAt
  rw [getLast?_filter_range_some]
  constructor
  · intro ⟨h1, h2, h3⟩
    refine ⟨by simpa using h1, h2, fun k hk1 hk2 => ?_⟩
    have := h3 k hk1 hk2
    simpa using this
  · intro ⟨h1, h2, h3⟩
    refine ⟨by simpa using h1, h2, fun k hk1 hk2 => ?_⟩
    simpa using h3 k hk1 hk2

theorem lastHeadingAt_none_iff (nodes : List Node) (i l : Nat) :
    lastHeadingAt nodes i l = none ↔ ∀ j, j < i → levelAt nodes j ≠ l := by
  unfold lastHeadingAt
  rw [getLast?_filter_range_none]
  constructor
  · intro h j hj
    have := h j hj
    simpa using this
  · intro h j hj
    simpa using h j hj

theorem lastHeadingAt_succ (nodes : List Node) (i l : Nat) :
    lastHeadingAt nodes (i + 1) l =
      if levelAt nodes i = l then some i else lastHeadingAt nodes i l := by
  unfold lastHeadingAt
  rw [List.range_succ, List.filter_append]
  by_cases h : levelAt nodes i = l
  · rw [if_pos h, show List.filter (fun j => decide (levelAt nodes j = l)) [i] = [i]
      from by simp [h]]
    rw [List.getLast?_concat]
  · rw [if_neg h, show List.filter (fun j => decide (levelAt nodes j = l)) [i] = []
      from by simp [h]]
    rw [List.append_nil]

theorem hc_succ (nodes : List Node) (i : Nat) :
    hc nodes (i + 1) = hc nodes i + (if 0 < levelAt nodes i then 1 else 0) := by
  unfold hc
  rw [List.take_succ, List.filter_append, List.length_append]
  congr 1
  unfold levelAt
  cases h : nodes[i]? with
  | none => simp
  | some nd =>
    by_cases hl : 0 < getHeadingLevel nd.tag
    · simp [hl]
    · simp [hl]

theorem hc_mono (nodes : List Node) : ∀ (a b : Nat), a ≤ b → hc nodes a ≤ hc nodes b := by
  intro a b
  induction b with
  | zero =>
    intro h
    have ha : a = 0 := by omega
    rw [ha]
  | succ b2 ih =>
    intro h
    by_cases he : a = b2 + 1
    · rw [he]
    · have hih := ih (by omega)
      rw [hc_succ]
      by_cases hl : 0 < levelAt nodes b2 <;> simp [hl] <;> omega

/-- The invariant tying the current_sections map after processing the first
i stream elements to the stream itself: key 0 is the open root; a key l > 0
is present exactly when a heading at level l occurred, holds the last such
heading's section id while no shallower heading followed it, and holds None
once one did. -/
def CsInv (nodes : List Node) (i : Nat) (cs : List (Nat × Option Nat)) : Prop :=
  cs.lookup 0 = some (some 0) ∧
    ∀ l, 0 < l →
      ((lastHeadingAt nodes i l = none ∧ cs.lookup l = none) ∨
        (∃ j, lastHeadingAt nodes i l = some j ∧
          ((ClosedAfter nodes j i l ∧ cs.lookup l = some none) ∨
            (¬ ClosedAfter nodes j i l ∧
              cs.lookup l = some (some (secIdOf nodes j))))))

theorem open_of_last_not_closed (nodes : List Node) (i l j : Nat) (hl : 0 < l)
    (hlast : lastHeadingAt nodes i l = some j) (hnc : ¬ ClosedAfter nodes j i l) :
    OpenAt nodes j i ∧ levelAt nodes j = l := by
  obtain ⟨h1, h2, h3⟩ := (lastHeadingAt_some_iff nodes i l j).mp hlast
  refine ⟨⟨by omega, h2, fun k hk1 hk2 hk3 => ?_⟩, h1⟩
  by_contra hcon
  push_neg at hcon
  by_cases he : levelAt nodes k = l
  · exact h3 k hk2 hk1 he
  · exact hnc ⟨k, hk1, hk2, hk3, by omega⟩

theorem last_of_open (nodes : List Node) (i j : Nat) (ho : OpenAt nodes j i) :
    lastHeadingAt nodes i (levelAt nodes j) = some j ∧
      ¬ ClosedAfter nodes j i (levelAt nodes j) := by
  obtain ⟨h1, h2, h3⟩ := ho
  constructor
  · rw [lastHeadingAt_some_iff]
    refine ⟨rfl, h2, fun k hk1 hk2 he => ?_⟩
    have := h3 k hk2 hk1 (by omega)
    omega
  · intro ⟨k, hk1, hk2, hk3, hk4⟩
    have := h3 k hk1 hk2 hk3
    omega

theorem csInv_open_elim (nodes : List Node) (i : Nat) (cs : List (Nat × Option Nat))
    (hinv : CsInv nodes i cs) (l : Nat) (hl : 0 < l) (id : Nat)
    (h : cs.lookup l = some (some id)) :
    ∃ j, OpenAt nodes j i ∧ levelAt nodes j = l ∧ id = secIdOf nodes j := by
  rcases hinv.2 l hl with ⟨_, hnone⟩ | ⟨j, hlast, ⟨_, hcl⟩ | ⟨hnc, hop⟩⟩
  · rw [h] at hnone; cases hnone
  · rw [h] at hcl; cases hcl
  · rw [h] at hop
    obtain ⟨hopj, hlev⟩ := open_of_last_not_closed nodes i l j hl hlast hnc
    exact ⟨j, hopj, hlev, by cases hop; rfl⟩

theorem csInv_open_intro (nodes : List Node) (i : Nat) (cs : List (Nat × Option Nat))
    (hinv : CsInv nodes i cs) (j : Nat) (ho : OpenAt nodes j i) :
    cs.lookup (levelAt nodes j) = some (some (secIdOf nodes j)) := by
  obtain ⟨hlast, hnc⟩ := last_of_open nodes i j ho
  have hl : 0 < levelAt nodes j := ho.1
  rcases hinv.2 (levelAt nodes j) hl with ⟨hn, _⟩ | ⟨j2, hlast2, ⟨hc2, _⟩ | ⟨_, hop2⟩⟩
  · rw [hlast] at hn; cases hn
  · rw [hlast] at hlast2
    cases hlast2
    exact absurd hc2 hnc
  · rw [hlast] at hlast2
    cases hlast2
    exact hop2

theorem openAt_mono (nodes : List Node) (j1 j2 i : Nat) (h1 : OpenAt nodes j1 i)
    (h2 : OpenAt nodes j2 i) (hj : j1 < j2) :
    levelAt nodes j1 < levelAt nodes j2 :=
  h1.2.2 j2 h2.2.1 hj h2.1

theorem specParentIdx_some_iff (nodes : List Node) (i j : Nat) :
    specParentIdx nodes i = some j ↔
      (OpenAt nodes j i ∧ levelAt nodes j < levelAt nodes i) ∧
        ∀ k, j < k → k < i →
          ¬ (OpenAt nodes k i ∧ levelAt nodes k < levelAt nodes i) := by
  unfold specParentIdx
  rw [getLast?_filter_range_some]
  constructor
  · intro ⟨h1, h2, h3⟩
    refine ⟨by simpa using h1, fun k hk1 hk2 => ?_⟩
    have := h3 k hk1 hk2
    simpa using this
  · intro ⟨h1, h3⟩
    refine ⟨by simpa using h1, h1.1.2.1, fun k hk1 hk2 => ?_⟩
    simpa using h3 k hk1 hk2

theorem specParentIdx_none_iff (nodes : List Node) (i : Nat) :
    specParentIdx nodes i = none ↔
      ∀ j, j < i → ¬ (OpenAt nodes j i ∧ levelAt nodes j < levelAt nodes i) := by
  unfold specParentIdx
  rw [getLast?_filter_range_none]
  constructor
  · intro h j hj
    have := h j hj
    simpa using this
  · intro h j hj
    simpa using h j hj

theorem skipAbsent_spec (cs : List (Nat × Option Nat)) :
    ∀ n, skipAbsent cs n ≤ n ∧
      (skipAbsent cs n = 0 ∨ (cs.lookup (skipAbsent cs n)).isSome = true) ∧
      ∀ l, skipAbsent cs n < l → l ≤ n → cs.lookup l = none := by
  intro n
  induction n with
  | zero => exact ⟨Nat.le_refl 0, Or.inl rfl, fun l h1 h2 => by omega⟩
  | succ n2 ih =>
    by_cases h : (cs.lookup (n2 + 1)).isSome = true
    · rw [show skipAbsent cs (n2 + 1) = n2 + 1 from by simp [skipAbsent, h]]
      exact ⟨Nat.le_refl _, Or.inr h, fun l h1 h2 => by omega⟩
    · have hstep : skipAbsent cs (n2 + 1) = skipAbsent cs n2 := by
        simp [skipAbsent, h]
      rw [hstep]
      obtain ⟨ih1, ih2, ih3⟩ := ih
      refine ⟨by omega, ih2, fun l h1 h2 => ?_⟩
      by_cases hl : l = n2 + 1
      · subst hl
        exact Option.not_isSome_iff_eq_none.mp h
      · exact ih3 l h1 (by omega)

theorem skipClosed_spec (cs : List (Nat × Option Nat)) :
    ∀ n pl, skipClosed cs n = .ok pl →
      pl ≤ n ∧ (pl = 0 ∨ ∃ id, cs.lookup pl = some (some id)) ∧
        ∀ l, pl < l → l ≤ n → cs.lookup l = some none := by
  intro n
  induction n with
  | zero =>
    intro pl h
    have : pl = 0 := by
      simpa [skipClosed] using h.symm
    subst this
    exact ⟨Nat.le_refl 0, Or.inl rfl, fun l h1 h2 => by omega⟩
  | succ n2 ih =>
    intro pl h
    unfold skipClosed at h
    cases hlk : cs.lookup (n2 + 1) with
    | none => rw [hlk] at h; cases h
    | some v =>
      cases v with
      | none =>
        rw [hlk] at h
        obtain ⟨ih1, ih2, ih3⟩ := ih pl h
        refine ⟨by omega, ih2, fun l h1 h2 => ?_⟩
        by_cases hl : l = n2 + 1
        · subst hl; exact hlk
        · exact ih3 l h1 (by omega)
      | some id =>
        rw [hlk] at h
        have hpl : pl = n2 + 1 := by
          cases h; rfl
        subst hpl
        exact ⟨Nat.le_refl _, Or.inr ⟨id, hlk⟩, fun l h1 h2 => by omega⟩

theorem parent_correct (nodes : List Node) (i : Nat) (cs : List (Nat × Option Nat))
    (hinv : CsInv nodes i cs) (hl : 0 < levelAt nodes i) (pl : Nat)
    (hok : skipClosed cs (skipAbsent cs (levelAt nodes i - 1)) = .ok pl) :
    parentChoice cs pl = expectedParentId nodes i := by
  obtain ⟨ha1, ha2, ha3⟩ := skipAbsent_spec cs (levelAt nodes i - 1)
  obtain ⟨hb1, hb2, hb3⟩ := skipClosed_spec cs (skipAbsent cs (levelAt nodes i - 1)) pl hok
  have hnotopen : ∀ l, pl < l → l < levelAt nodes i → ∀ id,
      cs.lookup l ≠ some (some id) := by
    intro l h1 h2 id hcon
    by_cases hless : l ≤ skipAbsent cs (levelAt nodes i - 1)
    · have := hb3 l h1 hless
      rw [hcon] at this
      cases this
    · have := ha3 l (by omega) (by omega)
      rw [hcon] at this
      cases this
  by_cases hpl : pl = 0
  · subst hpl
    have hpc : parentChoice cs 0 = 0 := by
      unfold parentChoice
      rw [hinv.1]
    rw [hpc]
    unfold expectedParentId
    rw [(specParentIdx_none_iff nodes i).mpr ?_]
    intro j hj ⟨hop, hlev⟩
    have hlk := csInv_open_intro nodes i cs hinv j hop
    exact hnotopen (levelAt nodes j) (by have := hop.1; omega) hlev _ hlk
  · rcases hb2 with hzero | ⟨id, hlk⟩
    · exact absurd hzero hpl
    · have hpc : parentChoice cs pl = id := by
        unfold parentChoice
        rw [hlk]
      rw [hpc]
      obtain ⟨j0, hop0, hlev0, hid0⟩ :=
        csInv_open_elim nodes i cs hinv pl (by omega) id hlk
      have hplL : pl < levelAt nodes i := by
        have : pl ≤ levelAt nodes i - 1 := by omega
        omega
      unfold expectedParentId
      rw [(specParentIdx_some_iff nodes i j0).mpr ?_]
      · rw [hid0]
      · refine ⟨⟨hop0, by omega⟩, fun k hk1 hk2 ⟨hopk, hlevk⟩ => ?_⟩
        have hmono := openAt_mono nodes j0 k i hop0 hopk hk1
        have hlkk := csInv_open_intro nodes i cs hinv k hopk
        exact hnotopen (levelAt nodes k) (by omega) hlevk _ hlkk

theorem closedAfter_succ (nodes : List Node) (j i l : Nat) :
    ClosedAfter nodes j (i + 1) l ↔
      ClosedAfter nodes j i l ∨ (j < i ∧ 0 < levelAt nodes i ∧ levelAt nodes i < l) := by
  constructor
  · intro ⟨k, hk1, hk2, hk3, hk4⟩
    by_cases hki : k = i
    · subst hki
      exact Or.inr ⟨hk2, hk3, hk4⟩
    · exact Or.inl ⟨k, by omega, hk2, hk3, hk4⟩
  · intro h
    rcases h with ⟨k, hk1, hk2, hk3, hk4⟩ | ⟨h1, h2, h3⟩
    · exact ⟨k, by omega, hk2, hk3, hk4⟩
    · exact ⟨i, by omega, h1, h2, h3⟩

theorem csInv_content_step (nodes : List Node) (i : Nat) (cs : List (Nat × Option Nat))
    (hinv : CsInv nodes i cs) (hlvl : levelAt nodes i = 0) : CsInv nodes (i + 1) cs := by
  refine ⟨hinv.1, fun l hl => ?_⟩
  have hlast : lastHeadingAt nodes (i + 1) l = lastHeadingAt nodes i l := by
    rw [lastHeadingAt_succ, if_neg (by omega)]
  have hcl : ∀ j, ClosedAfter nodes j (i + 1) l ↔ ClosedAfter nodes j i l := by
    intro j
    rw [closedAfter_succ]
    constructor
    · intro h
      rcases h with h | ⟨_, h2, _⟩
      · exact h
      · omega
    · exact Or.inl
  rcases hinv.2 l hl with ⟨h1, h2⟩ | ⟨j, hj, hrest⟩
  · exact Or.inl ⟨by rw [hlast]; exact h1, h2⟩
  · refine Or.inr ⟨j, by rw [hlast]; exact hj, ?_⟩
    rcases hrest with ⟨hc1, hc2⟩ | ⟨hn1, hn2⟩
    · exact Or.inl ⟨(hcl j).mpr hc1, hc2⟩
    · exact Or.inr ⟨fun hcon => hn1 ((hcl j).mp hcon), hn2⟩

theorem csInv_heading_step (nodes : List Node) (i : Nat) (cs : List (Nat × Option Nat))
    (newId : Nat) (hinv : CsInv nodes i cs) (hl : 0 < levelAt nodes i)
    (hid : newId = secIdOf nodes i) :
    CsInv nodes (i + 1)
      (closeDeeper (alInsert cs (levelAt nodes i) (some newId)) (levelAt nodes i)) := by
  constructor
  · rw [lookup_closeDeeper, if_neg (by omega), lookup_alInsert, if_neg (by omega)]
    exact hinv.1
  · intro l hlpos
    by_cases hll : l = levelAt nodes i
    · have hlk : (closeDeeper (alInsert cs (levelAt nodes i) (some newId))
          (levelAt nodes i)).lookup l = some (some newId) := by
        rw [hll, lookup_closeDeeper, if_neg (by omega), lookup_alInsert, if_pos rfl]
      refine Or.inr ⟨i, ?_, Or.inr ⟨?_, ?_⟩⟩
      · rw [lastHeadingAt_succ, if_pos hll.symm]
      · intro ⟨k, hk1, hk2, _, _⟩
        omega
      · rw [hlk, hid]
    · have hlk : (closeDeeper (alInsert cs (levelAt nodes i) (some newId))
          (levelAt nodes i)).lookup l =
          if levelAt nodes i < l then (cs.lookup l).map (fun _ => (none : Option Nat))
          else cs.lookup l := by
        rw [lookup_closeDeeper]
        by_cases hdeep : levelAt nodes i < l
        · rw [if_pos hdeep, if_pos hdeep, lookup_alInsert,
            if_neg (fun he => hll he)]
        · rw [if_neg hdeep, if_neg hdeep, lookup_alInsert,
            if_neg (fun he => hll he)]
      have hlast : lastHeadingAt nodes (i + 1) l = lastHeadingAt nodes i l := by
        rw [lastHeadingAt_succ, if_neg (fun he => hll he.symm)]
      by_cases hdeep : levelAt nodes i < l
      · rw [if_pos hdeep] at hlk
        rcases hinv.2 l hlpos with ⟨h1, h2⟩ | ⟨j, hj, hrest⟩
        · exact Or.inl ⟨by rw [hlast]; exact h1, by rw [hlk, h2]; rfl⟩
        · refine Or.inr ⟨j, by rw [hlast]; exact hj, Or.inl ⟨?_, ?_⟩⟩
          · have hji : j < i := ((lastHeadingAt_some_iff nodes i l j).mp hj).2.1
            rw [closedAfter_succ]
            exact Or.inr ⟨hji, by omega, hdeep⟩
          · rcases hrest with ⟨_, hc2⟩ | ⟨_, hn2⟩
            · rw [hlk, hc2]; rfl
            · rw [hlk, hn2]; rfl
      · rw [if_neg hdeep] at hlk
        have hcl : ∀ j, ClosedAfter nodes j (i + 1) l ↔ ClosedAfter nodes j i l := by
          intro j
          rw [closedAfter_succ]
          constructor
          · intro h
            rcases h with h | ⟨_, _, h3⟩
            · exact h
            · omega
          · exact Or.inl
        rcases hinv.2 l hlpos with ⟨h1, h2⟩ | ⟨j, hj, hrest⟩
        · exact Or.inl ⟨by rw [hlast]; exact h1, by rw [hlk]; exact h2⟩
        · refine Or.inr ⟨j, by rw [hlast]; exact hj, ?_⟩
          rcases hrest with ⟨hc1, hc2⟩ | ⟨hn1, hn2⟩
          · exact Or.inl ⟨(hcl j).mpr hc1, by rw [hlk]; exact hc2⟩
          · exact Or.inr ⟨fun hcon => hn1 ((hcl j).mp hcon), by rw [hlk]; exact hn2⟩

/-- The store half of the builder invariant at time i: the store holds the
root plus one record per processed heading, and each heading's record
carries the parent id demanded by the attachment rule. -/
def StoreInvC1 (nodes : List Node) (i : Nat) (store : Store) : Prop :=
  store.length = hc nodes i + 1 ∧
    ∀ j, j < i → 0 < levelAt nodes j →
      ∃ r, store[secIdOf nodes j]? = some r ∧
        r.parent = some (expectedParentId nodes j) ∧
        r.level = levelAt nodes j ∧
        r.title = pyStrip (textAt nodes j)

/-- Full builder invariant at time i. -/
def BInv (nodes : List Node) (i : Nat) (st : BState) : Prop :=
  CsInv nodes i st.cs ∧ StoreInvC1 nodes i st.store

/-- The builder run on the first i stream elements. -/
def foldUpTo (nodes : List Node) (i : Nat) : Except BuildErr BState :=
  (nodes.take i).foldlM buildStep initState

theorem buildStep_binv (nodes : List Node) (i : Nat) (nd : Node)
    (hnd : nodes[i]? = some nd) (st st' : BState) (hstep : buildStep st nd = .ok st')
    (hinv : BInv nodes i st) : BInv nodes (i + 1) st' := by
  obtain ⟨hcs, hlen, hst⟩ := hinv
  have hlev : levelAt nodes i = getHeadingLevel nd.tag := by
    unfold levelAt
    rw [hnd]
  have htext : textAt nodes i = nd.text := by
    unfold textAt
    rw [hnd]
  unfold buildStep at hstep
  by_cases hl : 0 < getHeadingLevel nd.tag
  · rw [if_pos hl] at hstep
    unfold headingStep at hstep
    cases hsc : skipClosed st.cs (skipAbsent st.cs (getHeadingLevel nd.tag - 1)) with
    | error e => rw [hsc] at hstep; cases hstep
    | ok pl =>
      rw [hsc] at hstep
      simp only [Except.ok.injEq] at hstep
      subst hstep
      have hid : st.store.length = secIdOf nodes i := by
        rw [hlen]; rfl
      have hsc2 : skipClosed st.cs (skipAbsent st.cs (levelAt nodes i - 1)) = .ok pl := by
        rw [hlev]; exact hsc
      have hpc := parent_correct nodes i st.cs hcs (by omega) pl hsc2
      constructor
      · have := csInv_heading_step nodes i st.cs st.store.length hcs
          (by omega) hid
        rw [hlev] at this
        exact this
      · constructor
        · simp only [List.length_append, List.length_cons, List.length_nil, hlen]
          rw [hc_succ, if_pos (by omega)]
        · intro j hj hjl
          by_cases hji : j = i
          · subst hji
            refine ⟨⟨pyStrip nd.text, getHeadingLevel nd.tag, [],
                some (parentChoice st.cs pl)⟩, ?_, ?_, ?_, ?_⟩
            · rw [show secIdOf nodes j = st.store.length from hid.symm]
              exact List.getElem?_concat_length st.store _
            · simp [hpc]
            · simp [hlev]
            · simp [htext]
          · have hji2 : j < i := by omega
            obtain ⟨r, hr1, hr2, hr3, hr4⟩ := hst j hji2 hjl
            refine ⟨r, ?_, hr2, hr3, hr4⟩
            rw [List.getElem?_append_left, hr1]
            have hsle : secIdOf nodes j < st.store.length := by
              rw [hlen]
              have h1 : hc nodes (j + 1) = hc nodes j + 1 := by
                rw [hc_succ, if_pos hjl]
              have h2 : hc nodes (j + 1) ≤ hc nodes i := hc_mono nodes (j + 1) i (by omega)
              unfold secIdOf
              omega
            exact hsle
  · rw [if_neg hl] at hstep
    simp only [Except.ok.injEq] at hstep
    subst hstep
    have hlvl0 : levelAt nodes i = 0 := by omega
    constructor
    · rw [contentStep_cs]
      exact csInv_content_step nodes i st.cs hcs hlvl0
    · rcases contentStep_store_cases st nd with hs | ⟨i2, s2, hs⟩
      · rw [hs]
        constructor
        · rw [hlen, hc_succ, if_neg (by omega)]
        · intro j hj hjl
          have hji : j < i := by
            by_contra hcj
            have : j = i := by omega
            subst this
            omega
          exact hst j hji hjl
      · rw [hs]
        constructor
        · rw [addContentAt_length, hlen, hc_succ, if_neg (by omega)]
        · intro j hj hjl
          have hji : j < i := by
            by_contra hcj
            have : j = i := by omega
            subst this
            omega
          obtain ⟨r, hr1, hr2, hr3, hr4⟩ := hst j hji hjl
          rw [addContentAt_getElem, hr1,
            (rfl : Option.map (fun r =>
              if secIdOf nodes j = i2 then
                { r with content := if pyStrip s2 ≠ "" then r.content ++ [pyStrip s2]
                    else r.content }
              else r) (some r) = some (if secIdOf nodes j = i2 then
                { r with content := if pyStrip s2 ≠ "" then r.content ++ [pyStrip s2]
                    else r.content }
              else r))]
          refine ⟨_, rfl, ?_, ?_, ?_⟩
          · split
            · exact hr2
            · exact hr2
          · split
            · exact hr3
            · exact hr3
          · split
            · exact hr4
            · exact hr4

theorem binv_init (nodes : List Node) : BInv nodes 0 initState := by
  refine ⟨⟨rfl, fun l hl => ?_⟩, rfl, fun j hj _ => by omega⟩
  refine Or.inl ⟨(lastHeadingAt_none_iff nodes 0 l).mpr (fun j hj => by omega), ?_⟩
  show List.lookup l [(0, some 0)] = none
  rw [List.lookup_cons, (show (l == 0) = false by simpa using (by omega : l ≠ 0))]
  rfl

theorem build_inv_upTo (nodes : List Node) :
    ∀ (i : Nat), i ≤ nodes.length → ∀ st, foldUpTo nodes i = .ok st →
      BInv nodes i st := by
  intro i
  induction i with
  | zero =>
    intro _ st h
    have hst : st = initState := by
      simp only [foldUpTo, List.take_zero, List.foldlM_nil, pure, Except.pure,
        Except.ok.injEq] at h
      exact h.symm
    rw [hst]
    exact binv_init nodes
  | succ i2 ih =>
    intro hle st h
    have hi2 : i2 < nodes.length := by omega
    obtain ⟨nd, hnd⟩ : ∃ nd, nodes[i2]? = some nd := by
      rw [List.getElem?_eq_getElem hi2]
      exact ⟨_, rfl⟩
    have htake : nodes.take (i2 + 1) = nodes.take i2 ++ [nd] := by
      rw [List.take_succ, hnd]
      rfl
    rw [foldUpTo, htake, List.foldlM_append] at h
    cases hmid : foldUpTo nodes i2 with
    | error e =>
      rw [show (nodes.take i2).foldlM buildStep initState = foldUpTo nodes i2 from rfl,
        hmid] at h
      simp [bind, Except.bind] at h
    | ok stmid =>
      rw [show (nodes.take i2).foldlM buildStep initState = foldUpTo nodes i2 from rfl,
        hmid] at h
      simp only [bind, Except.bind, List.foldlM_cons, List.foldlM_nil] at h
      cases hbs : buildStep stmid nd with
      | error e => rw [hbs] at h; simp at h
      | ok st3 =>
        rw [hbs] at h
        have hst3 : st3 = st := by
          simpa [pure, Except.pure] using h
        rw [← hst3]
        exact buildStep_binv nodes i2 nd hnd stmid st3 hbs (ih (by omega) stmid hmid)

/-- C1 (amended): whenever build_section_tree completes without raising, the
section created for the heading at stream position i carries that heading's
level and stripped text and is attached as a child of the nearest preceding
still-open section of strictly smaller level, with absent intermediate
levels skipped (expectedParentId), or of the synthetic root when no such
open section exists. (The unamended claim fails because the builder can
raise KeyError instead of building a tree, see the counterexample.) -/
theorem build_heading_parent_correct (nodes : List Node) (st : BState)
    (hb : buildSectionTree nodes = .ok st) (i : Nat) (hl : 0 < levelAt nodes i) :
    ∃ r, st.store[secIdOf nodes i]? = some r ∧
      r.parent = some (expectedParentId nodes i) ∧
      r.level = levelAt nodes i ∧
      r.title = pyStrip (textAt nodes i) := by
  have hi : i < nodes.length := by
    by_contra hcon
    have hnone : nodes[i]? = none := List.getElem?_eq_none (by omega)
    have h0 : levelAt nodes i = 0 := by
      unfold levelAt
      rw [hnone]
    omega
  have hfold : foldUpTo nodes nodes.length = .ok st := by
    rw [foldUpTo, List.take_length]
    exact hb
  exact (build_inv_upTo nodes nodes.length (Nat.le_refl _) st hfold).2.2 i hi hl

/-- Witness for C1 on the level-skipping stream h1 A, h4 B, h2 C: the build
succeeds and the h4 heading's section is attached to the h1 section (store
id 1), skipping the absent levels 2 and 3. -/
theorem build_heading_parent_correct_witness :
    buildSectionTree [hNode 1 "A", hNode 4 "B", hNode 2 "C"] =
        .ok ⟨[⟨"ROOT", 0, [], none⟩, ⟨"A", 1, [], some 0⟩, ⟨"B", 4, [], some 1⟩,
              ⟨"C", 2, [], some 1⟩],
             [(0, some 0), (1, some 1), (4, none), (2, some 3)]⟩
      ∧ 0 < levelAt [hNode 1 "A", hNode 4 "B", hNode 2 "C"] 1
      ∧ expectedParentId [hNode 1 "A", hNode 4 "B", hNode 2 "C"] 1 = 1
      ∧ ∃ r,
          (⟨[⟨"ROOT", 0, [], none⟩, ⟨"A", 1, [], some 0⟩, ⟨"B", 4, [], some 1⟩,
              ⟨"C", 2, [], some 1⟩],
            [(0, some 0), (1, some 1), (4, none), (2, some 3)]⟩ : BState).store[
              secIdOf [hNode 1 "A", hNode 4 "B", hNode 2 "C"] 1]? = some r ∧
            r.parent =
              some (expectedParentId [hNode 1 "A", hNode 4 "B", hNode 2 "C"] 1) ∧
            r.level = levelAt [hNode 1 "A", hNode 4 "B", hNode 2 "C"] 1 ∧
            r.title = pyStrip (textAt [hNode 1 "A", hNode 4 "B", hNode 2 "C"] 1) :=
  ⟨by decide, by decide, by decide,
   build_heading_parent_correct [hNode 1 "A", hNode 4 "B", hNode 2 "C"]
     ⟨[⟨"ROOT", 0, [], none⟩, ⟨"A", 1, [], some 0⟩, ⟨"B", 4, [], some 1⟩,
        ⟨"C", 2, [], some 1⟩],
      [(0, some 0), (1, some 1), (4, none), (2, some 3)]⟩
     (by decide) 1 (by decide)⟩
